import Mathlib

/-!
Verification development for the Notion-Inbox-Agent note-triage pipeline.

The Lean definitions below are shallow embeddings of the Python source under
`src/`.  Python strings are modelled as `List Char` (or `String` where no
character-level reasoning is needed), Python `None`/exceptions as
`Option`/`Except`, Python floats that only ever hold decimal literals as `ℚ`,
and Python ints as `Int`/`Nat`.  The JSON values handled by
`json.loads`/`json.dumps` are modelled by the inductive type `Json`; JSON
numbers are modelled as integers (no float/exponent syntax) and string
escapes cover the characters the serializer produces, which is the fragment
the theorems below exercise.
-/

/-! ### Character helpers -/

def quoteChar : Char := Char.ofNat 34

def backslashChar : Char := Char.ofNat 92

def backtickChar : Char := Char.ofNat 96

def leftBraceChar : Char := Char.ofNat 123

def rightBraceChar : Char := Char.ofNat 125

def leftBrackChar : Char := '['

def rightBrackChar : Char := ']'

def commaChar : Char := ','

def colonChar : Char := ':'

/-- The whitespace characters accepted between JSON tokens by `json.loads`
(space, tab, newline, carriage return). -/
def isJsonWs (c : Char) : Bool :=
  c = ' ' || c = '\t' || c = '\n' || c = '\r'

/-- The characters stripped by Python's `str.strip()` and matched by `\s`
in the regular expressions of `utils.py` (ASCII fragment). -/
def isPyWs (c : Char) : Bool :=
  c = ' ' || c = '\t' || c = '\n' || c = '\r' || c = '\x0b' || c = '\x0c'

/-- ASCII decimal digit test, as used by the JSON number grammar. -/
def isDigitChar (c : Char) : Bool :=
  48 ≤ c.toNat && c.toNat ≤ 57

def digitChar (d : Nat) : Char :=
  match d with
  | 0 => '0'
  | 1 => '1'
  | 2 => '2'
  | 3 => '3'
  | 4 => '4'
  | 5 => '5'
  | 6 => '6'
  | 7 => '7'
  | 8 => '8'
  | _ => '9'

def digitVal (c : Char) : Nat := c.toNat - 48

/-- Value of a big-endian digit string. -/
def charsVal (cs : List Char) : Nat := cs.foldl (fun a c => 10 * a + digitVal c) 0

/-- Decimal digits of `n`, most significant first, via a fuel counter
(`fuel ≥ 1` and `n < 10 ^ fuel` make it exact). -/
def natToCharsAux : Nat → Nat → List Char
  | 0, _ => []
  | fuel + 1, n => if n = 0 then [] else natToCharsAux fuel (n / 10) ++ [digitChar (n % 10)]

/-- Decimal representation of a natural number, as printed by `json.dumps`. -/
def natToChars (n : Nat) : List Char :=
  if n = 0 then ['0'] else natToCharsAux (n + 1) n

/-! ### JSON values

Model of the values produced by Python's `json.loads` (restricted to
integer numbers; object key order and duplicate keys follow the list). -/

inductive Json where
  | null : Json
  | bool (b : Bool) : Json
  | num (n : Int) : Json
  | str (s : List Char) : Json
  | arr (xs : List Json) : Json
  | obj (kvs : List (List Char × Json)) : Json

/-- Escaping of a single character inside a JSON string literal, as done by
`json.dumps` for the characters our theorems exercise. -/
def escapeChar (c : Char) : List Char :=
  if c = quoteChar then [backslashChar, quoteChar]
  else if c = backslashChar then [backslashChar, backslashChar]
  else if c = '\n' then [backslashChar, 'n']
  else if c = '\t' then [backslashChar, 't']
  else if c = '\r' then [backslashChar, 'r']
  else [c]

def escapeList : List Char → List Char
  | [] => []
  | c :: cs => escapeChar c ++ escapeList cs

mutual

/-- Compact JSON serialization (the `json_stringify` of the spec's
idempotence property; separators `,` and `:`, like
`json.dumps(v, separators=(",", ":"))`). -/
def serialize : Json → List Char
  | Json.null => ['n', 'u', 'l', 'l']
  | Json.bool true => ['t', 'r', 'u', 'e']
  | Json.bool false => ['f', 'a', 'l', 's', 'e']
  | Json.num n => if n < 0 then '-' :: natToChars n.natAbs else natToChars n.toNat
  | Json.str s => quoteChar :: escapeList s ++ [quoteChar]
  | Json.arr xs => leftBrackChar :: serializeElems xs
  | Json.obj kvs => leftBraceChar :: serializePairs kvs

def serializeElems : List Json → List Char
  | [] => [rightBrackChar]
  | x :: xs => serialize x ++ serializeRest xs

def serializeRest : List Json → List Char
  | [] => [rightBrackChar]
  | x :: xs => commaChar :: serialize x ++ serializeRest xs

def serializePairs : List (List Char × Json) → List Char
  | [] => [rightBraceChar]
  | (k, v) :: kvs =>
      quoteChar :: escapeList k ++ [quoteChar, colonChar] ++ serialize v ++ serializePairsRest kvs

def serializePairsRest : List (List Char × Json) → List Char
  | [] => [rightBraceChar]
  | (k, v) :: kvs =>
      commaChar :: quoteChar :: escapeList k ++ [quoteChar, colonChar] ++ serialize v ++
        serializePairsRest kvs

end

mutual

/-- Fuel sufficient for `parseValue` to reparse `serialize v`. -/
def jsonFuel : Json → Nat
  | Json.null => 1
  | Json.bool _ => 1
  | Json.num _ => 1
  | Json.str _ => 1
  | Json.arr xs => 1 + jsonFuelElems xs
  | Json.obj kvs => 1 + jsonFuelPairs kvs

def jsonFuelElems : List Json → Nat
  | [] => 1
  | x :: xs => 1 + jsonFuel x + jsonFuelElems xs

def jsonFuelPairs : List (List Char × Json) → Nat
  | [] => 1
  | (_, v) :: kvs => 1 + jsonFuel v + jsonFuelPairs kvs

end

/-! ### JSON parser (model of `json.loads`) -/

def skipWs (cs : List Char) : List Char := cs.dropWhile isJsonWs

def unescapeChar (c : Char) : Option Char :=
  if c = quoteChar then some quoteChar
  else if c = backslashChar then some backslashChar
  else if c = 'n' then some '\n'
  else if c = 't' then some '\t'
  else if c = 'r' then some '\r'
  else none

/-- Parse the body of a JSON string literal (the opening quote already
consumed); returns the unescaped content and the input after the closing
quote. -/
def parseStringBody : List Char → Option (List Char × List Char)
  | [] => none
  | c :: rest =>
    if c = quoteChar then some ([], rest)
    else if c = backslashChar then
      match rest with
      | [] => none
      | e :: rest2 =>
        match unescapeChar e with
        | some u => (parseStringBody rest2).map (fun p => (u :: p.1, p.2))
        | none => none
    else (parseStringBody rest).map (fun p => (c :: p.1, p.2))

/-- Parse a nonempty run of decimal digits into its value. -/
def parseNatPart (cs : List Char) : Option (Nat × List Char) :=
  let ds := cs.takeWhile isDigitChar
  if ds.isEmpty then none else some (charsVal ds, cs.dropWhile isDigitChar)

mutual

/-- Recursive-descent JSON value parser with a fuel counter; consumes
leading whitespace, then one JSON value, and returns the unconsumed rest. -/
def parseValue : Nat → List Char → Option (Json × List Char)
  | 0, _ => none
  | fuel + 1, cs =>
    match skipWs cs with
    | [] => none
    | c :: rest =>
      if c = quoteChar then (parseStringBody rest).map (fun p => (Json.str p.1, p.2))
      else if c = leftBraceChar then parseObjectBody fuel (skipWs rest)
      else if c = leftBrackChar then parseArrayBody fuel (skipWs rest)
      else if c = 'n' then
        match rest with
        | 'u' :: 'l' :: 'l' :: r => some (Json.null, r)
        | _ => none
      else if c = 't' then
        match rest with
        | 'r' :: 'u' :: 'e' :: r => some (Json.bool true, r)
        | _ => none
      else if c = 'f' then
        match rest with
        | 'a' :: 'l' :: 's' :: 'e' :: r => some (Json.bool false, r)
        | _ => none
      else if c = '-' then (parseNatPart rest).map (fun p => (Json.num (-(p.1 : Int)), p.2))
      else if isDigitChar c then
        (parseNatPart (c :: rest)).map (fun p => (Json.num (p.1 : Int), p.2))
      else none

/-- After `[` (whitespace consumed): either `]` or the first element. -/
def parseArrayBody : Nat → List Char → Option (Json × List Char)
  | 0, _ => none
  | fuel + 1, cs =>
    match cs with
    | [] => none
    | c :: rest =>
      if c = rightBrackChar then some (Json.arr [], rest)
      else
        match parseValue fuel (c :: rest) with
        | none => none
        | some (v, r) =>
          match parseArrayTail fuel (skipWs r) with
          | none => none
          | some (vs, r2) => some (Json.arr (v :: vs), r2)

/-- After an array element (whitespace consumed): `,` and another element,
or the closing `]`. -/
def parseArrayTail : Nat → List Char → Option (List Json × List Char)
  | 0, _ => none
  | fuel + 1, cs =>
    match cs with
    | [] => none
    | c :: rest =>
      if c = rightBrackChar then some ([], rest)
      else if c = commaChar then
        match parseValue fuel (skipWs rest) with
        | none => none
        | some (v, r) =>
          match parseArrayTail fuel (skipWs r) with
          | none => none
          | some (vs, r2) => some (v :: vs, r2)
      else none

/-- After `{` (whitespace consumed): either `}` or the first `"key": value`
pair. -/
def parseObjectBody : Nat → List Char → Option (Json × List Char)
  | 0, _ => none
  | fuel + 1, cs =>
    match cs with
    | [] => none
    | c :: rest =>
      if c = rightBraceChar then some (Json.obj [], rest)
      else if c = quoteChar then
        match parseStringBody rest with
        | none => none
        | some (k, r1) =>
          match skipWs r1 with
          | [] => none
          | c2 :: r2 =>
            if c2 = colonChar then
              match parseValue fuel (skipWs r2) with
              | none => none
              | some (v, r3) =>
                match parseObjectTail fuel (skipWs r3) with
                | none => none
                | some (kvs, r4) => some (Json.obj ((k, v) :: kvs), r4)
            else none
      else none

/-- After an object pair (whitespace consumed): `,` and another pair, or
the closing `}`. -/
def parseObjectTail : Nat → List Char → Option (List (List Char × Json) × List Char)
  | 0, _ => none
  | fuel + 1, cs =>
    match cs with
    | [] => none
    | c :: rest =>
      if c = rightBraceChar then some ([], rest)
      else if c = commaChar then
        match skipWs rest with
        | [] => none
        | c2 :: r1 =>
          if c2 = quoteChar then
            match parseStringBody r1 with
            | none => none
            | some (k, r2) =>
              match skipWs r2 with
              | [] => none
              | c3 :: r3 =>
                if c3 = colonChar then
                  match parseValue fuel (skipWs r3) with
                  | none => none
                  | some (v, r4) =>
                    match parseObjectTail fuel (skipWs r4) with
                    | none => none
                    | some (kvs, r5) => some ((k, v) :: kvs, r5)
                else none
          else none
      else none

end

/-- Model of `json.loads`: parse one value and require that only whitespace
follows (otherwise Python raises "Extra data"). -/
def json_loads (cs : List Char) : Option Json :=
  match parseValue (2 * cs.length + 2) cs with
  | some (v, r) => if (skipWs r).isEmpty then some v else none
  | none => none

/-! ### Substring utilities (models of Python `str` operations and the
fixed regular expressions of `utils.py`) -/

/-- Strip a literal prefix, or fail. -/
def stripPre : List Char → List Char → Option (List Char)
  | [], cs => some cs
  | _ :: _, [] => none
  | p :: ps, c :: cs => if p = c then stripPre ps cs else none

/-- Index of the first (leftmost) occurrence of `pat` in `cs`. -/
def findSubIdx : List Char → List Char → Option Nat
  | cs, pat =>
    if pat.isPrefixOf cs then some 0
    else
      match cs with
      | [] => none
      | _ :: rest => (findSubIdx rest pat).map (· + 1)

/-- Substring containment, the model of Python's `in` on strings. -/
def containsSub (cs pat : List Char) : Bool := (findSubIdx cs pat).isSome

/-- Model of Python's `str.strip()`. -/
def pyStrip (cs : List Char) : List Char :=
  ((cs.dropWhile isPyWs).reverse.dropWhile isPyWs).reverse

def splitOnSubAux : Nat → List Char → List Char → List (List Char)
  | 0, cs, _ => [cs]
  | fuel + 1, cs, pat =>
    match findSubIdx cs pat with
    | none => [cs]
    | some i => cs.take i :: splitOnSubAux fuel (cs.drop (i + pat.length)) pat

/-- Model of Python's `str.split(pat)` for nonempty `pat`: split on every
non-overlapping leftmost occurrence. -/
def splitOnSub (cs pat : List Char) : List (List Char) := splitOnSubAux (cs.length + 1) cs pat

/-! ### Fenced-code-block extraction (models of the four `re.search`
patterns of `extract_json_from_response`, utils.py 112-117)

Each pattern has the shape `PREFIX \s* (…) SUFFIX` with a lazy, DOTALL
group.  `re.search` semantics: the leftmost starting position wins; at a
given position the greedy `\s*` backtracks from the longest whitespace run
(`tryWsNl`/`tryWsPlain` recurse downward on `j`), and the lazy group takes
the fewest characters, i.e. everything before the first occurrence of the
suffix. -/

def ticks3 : List Char := [backtickChar, backtickChar, backtickChar]

def fenceJsonTag : List Char := ticks3 ++ ['j', 's', 'o', 'n']

def newlineFence : List Char := '\n' :: ticks3

/-- One backtracking attempt of patterns 1/2 at whitespace-run length `j`:
a literal newline must follow, then the lazy group runs to the first
`"\n```"`. -/
def fenceNlAttempt (rest : List Char) (j : Nat) : Option (List Char) :=
  match rest.drop j with
  | c :: body =>
    if c = '\n' then (findSubIdx body newlineFence).map (fun k => body.take k) else none
  | [] => none

/-- Patterns 1/2 (`…\s*\n(.*?)\n``` `): the greedy `\s*` tries the longest
whitespace run first and backtracks downward. -/
def tryWsNl (rest : List Char) : Nat → Option (List Char)
  | 0 => fenceNlAttempt rest 0
  | j + 1 =>
    match fenceNlAttempt rest (j + 1) with
    | some g => some g
    | none => tryWsNl rest j

/-- One backtracking attempt of patterns 3/4 at whitespace-run length `j`:
the lazy group runs to the first `"```"`. -/
def fencePlainAttempt (rest : List Char) (j : Nat) : Option (List Char) :=
  (findSubIdx (rest.drop j) ticks3).map (fun k => (rest.drop j).take k)

/-- Patterns 3/4 (`…\s*(.*?)``` `): the greedy `\s*` tries the longest
whitespace run first and backtracks downward. -/
def tryWsPlain (rest : List Char) : Nat → Option (List Char)
  | 0 => fencePlainAttempt rest 0
  | j + 1 =>
    match fencePlainAttempt rest (j + 1) with
    | some g => some g
    | none => tryWsPlain rest j

/-- Try to match a `PREFIX \s* \n (.*?) \n``` ` pattern anchored at `cs`. -/
def matchFenceNlAt (pre : List Char) (cs : List Char) : Option (List Char) :=
  match stripPre pre cs with
  | none => none
  | some rest => tryWsNl rest (rest.takeWhile isPyWs).length

/-- Try to match a `PREFIX \s* (.*?) ``` ` pattern anchored at `cs`. -/
def matchFencePlainAt (pre : List Char) (cs : List Char) : Option (List Char) :=
  match stripPre pre cs with
  | none => none
  | some rest => tryWsPlain rest (rest.takeWhile isPyWs).length

/-- `re.search`: scan start positions left to right, first match wins. -/
def searchFence (matchAt : List Char → Option (List Char)) : List Char → Option (List Char)
  | [] => matchAt []
  | c :: rest =>
    match matchAt (c :: rest) with
    | some g => some g
    | none => searchFence matchAt rest

def searchPat1 (cs : List Char) : Option (List Char) := searchFence (matchFenceNlAt fenceJsonTag) cs

def searchPat2 (cs : List Char) : Option (List Char) := searchFence (matchFenceNlAt ticks3) cs

def searchPat3 (cs : List Char) : Option (List Char) :=
  searchFence (matchFencePlainAt fenceJsonTag) cs

def searchPat4 (cs : List Char) : Option (List Char) := searchFence (matchFencePlainAt ticks3) cs

/-! ### `extract_json_from_response` (utils.py 83-146) -/

/-- Strategy 1: parse the raw text directly. -/
def strategyDirect (cs : List Char) : Option Json := json_loads cs

/-- Strategies 2-5: regex-extract a fenced block, strip it, parse it; a
parse failure falls through to the next strategy. -/
def strategyFence (search : List Char → Option (List Char)) (cs : List Char) : Option Json :=
  match search cs with
  | some g => json_loads (pyStrip g)
  | none => none

def jsonTagToken : List Char := ['j', 's', 'o', 'n']

/-- Final fallback (utils.py 131-140): split on the fence delimiter, take
the second segment, strip a leading `json` token, parse. -/
def strategySplit (cs : List Char) : Option Json :=
  let parts := splitOnSub cs ticks3
  if 3 ≤ parts.length then
    match parts.get? 1 with
    | some s1 => json_loads (if jsonTagToken.isPrefixOf s1 then pyStrip (s1.drop 4) else s1)
    | none => none
  else none

/-- All extraction strategies in source order, first success wins. -/
def extractAttempts (cs : List Char) : Option Json :=
  (strategyDirect cs).orElse (fun _ =>
    (strategyFence searchPat1 cs).orElse (fun _ =>
      (strategyFence searchPat2 cs).orElse (fun _ =>
        (strategyFence searchPat3 cs).orElse (fun _ =>
          (strategyFence searchPat4 cs).orElse (fun _ => strategySplit cs)))))

/-- The `ValueError` message raised when every strategy fails, with its
200-character preview of the offending text (utils.py 143-146). -/
def malformedMsg (cs : List Char) : List Char :=
  "Failed to extract JSON from response. Content preview: ".data ++ cs.take 200 ++ "...".data

/-- Model of `extract_json_from_response` on a non-`None` argument: the
strategy chain of utils.py 104-140, raising (`Except.error`) with the
preview message when all strategies fail. -/
def extract_json_from_response (cs : List Char) : Except (List Char) Json :=
  match extractAttempts cs with
  | some v => Except.ok v
  | none => Except.error (malformedMsg cs)

/-! ### Message adaptation for restricted-role models (utils.py 34-80) -/

structure Message where
  role : String
  content : String
deriving DecidableEq

/-- ASCII lowercasing, the model of Python's `str.lower()` on the ASCII
model names this code compares. -/
def lowerChar (c : Char) : Char :=
  if 65 <= c.toNat && c.toNat <= 90 then Char.ofNat (c.toNat + 32) else c

def lowerList (cs : List Char) : List Char := cs.map lowerChar

/-- `is_gemma_model` (utils.py 34-36): Gemma-family, non-Flash models do not
accept a system role. -/
def is_gemma_model (model_name : String) : Bool :=
  containsSub (lowerList model_name.data) "gemma".data &&
    !containsSub (lowerList model_name.data) "flash".data

/-- Find the first user message and prepend the instructions header to its
content (the for/else loop of utils.py 69-78); `none` when no user message
exists. -/
def prependToFirstUser (instr : String) : List Message → Option (List Message)
  | [] => none
  | m :: ms =>
    if m.role == "user" then
      some ({ role := m.role, content := "Instructions:\n" ++ instr ++ "\n\n" ++ m.content } :: ms)
    else (prependToFirstUser instr ms).map (fun r => m :: r)

/-- `transform_messages_for_gemma` (utils.py 39-80): collect the system
messages' contents, keep the others in order, and prepend the joined
instructions to the first user message (or synthesize a leading user
message). -/
def transform_messages_for_gemma (messages : List Message) : List Message :=
  let system_instructions := (messages.filter (fun m => m.role == "system")).map Message.content
  let transformed := messages.filter (fun m => !(m.role == "system"))
  if system_instructions.isEmpty then transformed
  else
    let instructions_text := String.intercalate "\n" system_instructions
    match prependToFirstUser instructions_text transformed with
    | some result => result
    | none => { role := "user", content := "Instructions:\n" ++ instructions_text } :: transformed

/-- The message-adaptation step of `call_llm_with_json_response`
(utils.py 179-181): messages are transformed exactly for restricted-role
(Gemma, non-Flash) models. -/
def adapt_messages (model_name : String) (messages : List Message) : List Message :=
  if is_gemma_model model_name then transform_messages_for_gemma messages else messages

/-- Written from the spec's words (§4.1, `adaptMessages`), for the
refinement claim C7: all system-role messages are concatenated in original
order and prepended, with a literal "Instructions:" header, to the first
user-role message's content; if no user message exists, a new leading user
message is synthesized; non-system messages retain original order and
role. -/
def adaptMessagesSpec (ms : List Message) : List Message :=
  let sys := ms.filter (fun m => m.role == "system")
  let rest := ms.filter (fun m => !(m.role == "system"))
  if sys.isEmpty then rest
  else
    let header := "Instructions:\n" ++ String.intercalate "\n" (sys.map Message.content)
    match rest.dropWhile (fun m => !(m.role == "user")) with
    | u :: post =>
        rest.takeWhile (fun m => !(m.role == "user")) ++
          ({ role := "user", content := header ++ "\n\n" ++ u.content } :: post)
    | [] => { role := "user", content := header } :: rest

/-- `generate_default_title` (utils.py 215-225): first line of the note,
markdown bold/bracket markers removed, truncated to 80 characters with an
ellipsis, with a placeholder for empty results.  (The Python default
parameter `max_length=80` is inlined: no caller overrides it.) -/
def generate_default_title (note : String) : String :=
  let max_length : Nat := 80
  let first_line := ((note.splitOn "\n").headD "").trim
  let title := (((first_line.replace "**" "").replace "*" "").replace "[" "").replace "]" ""
  let title := if max_length < title.length then title.take (max_length - 3) ++ "..." else title
  if title.isEmpty then "Untitled Task" else title

/-! ### Pipeline data models (pydantic_models.py) -/

inductive ActionType where
  | DO_NOW : ActionType
  | REFINE : ActionType
  | EXECUTE : ActionType
deriving DecidableEq

/-- `ActionType(item["action"])`: constructing the enum from an unknown
string raises `ValueError` (`none`). -/
def ActionType.ofString (s : String) : Option ActionType :=
  if s = "DO_NOW" then some ActionType.DO_NOW
  else if s = "REFINE" then some ActionType.REFINE
  else if s = "EXECUTE" then some ActionType.EXECUTE
  else none

inductive AIUseStatus where
  | PROCESSED : AIUseStatus
  | AMBIGUOUS : AIUseStatus
deriving DecidableEq

/-- `NoteClassification` (pydantic_models.py 128-134).  Its complete field
list is mirrored in `noteClassificationFields`. -/
structure NoteClassification where
  note_id : Int
  projects : List String
  action : ActionType
  reasoning : String
  confidence_scores : List ℚ
deriving DecidableEq

/-- The exact field names declared by `NoteClassification`
(pydantic_models.py 128-134); in particular there is no `do_now` field. -/
def noteClassificationFields : List String :=
  ["note_id", "projects", "action", "reasoning", "confidence_scores"]

/-- `ProjectMetadata` (pydantic_models.py 117-126). -/
structure ProjectMetadata where
  name : String
  priority : Option String
  status : Option String
  types : List String
  description : Option String
  urgency : Option Int
  importance : Option Int
deriving DecidableEq

/-- `MetadataResult` (pydantic_models.py 136-140); `project_metadata` is the
dict of project name to metadata, modelled as an association list. -/
structure MetadataResult where
  classification : NoteClassification
  project_metadata : List (String × ProjectMetadata)
  is_do_now : Bool
deriving DecidableEq

/-- `RankingResult` (pydantic_models.py 150-157): all six fields are
required (no pydantic defaults). -/
structure RankingResult where
  title : String
  importance : Int
  urgency : Int
  impact : Int
  confidence : ℚ
  reasoning : String
deriving DecidableEq

/-- `EnrichmentResult` (pydantic_models.py 159-162). -/
structure EnrichmentResult where
  enriched_text : String
  lenses_used : List String
deriving DecidableEq

/-- `NotionTask` (pydantic_models.py 164-174).  It declares no `do_now`
field: the `do_now=...` keyword arguments passed in run.py are silently
ignored by pydantic (extra keys are dropped). -/
structure NotionTask where
  title : String
  projects : List String
  ai_use_status : AIUseStatus
  importance : Int
  urgency : Int
  impact : Int
  confidence : Option ℚ
  original_note : String
  enrichment : Option String
deriving DecidableEq

/-- `MetadataConfig` (pydantic_models.py 65-75), LLM client fields omitted. -/
structure MetadataConfig where
  top_n_projects : Nat
  project_confidence_threshold : ℚ
  do_now_threshold : ℚ
  batch_size : Nat
deriving DecidableEq

def defaultMetadataConfig : MetadataConfig :=
  { top_n_projects := 3, project_confidence_threshold := 85/100, do_now_threshold := 9/10,
    batch_size := 5 }

/-- `EnrichmentConfig` (pydantic_models.py 94-102), model field omitted. -/
structure EnrichmentConfig where
  impact_threshold : Int
  max_length : Nat
deriving DecidableEq

def defaultEnrichmentConfig : EnrichmentConfig := { impact_threshold := 15, max_length := 300 }

/-- `TaskConfig` (pydantic_models.py 104-106). -/
structure TaskConfig where
  confidence_threshold : ℚ
deriving DecidableEq

def defaultTaskConfig : TaskConfig := { confidence_threshold := 9/10 }

/-- The Python exceptions the embedded pipeline fragments can raise. -/
inductive PyError where
  | attributeError : PyError
  | indexError : PyError
  | validationError : PyError
  | countMismatch : PyError
  | invalidAction : PyError
deriving DecidableEq

/-! ### Classification stage (metadata.py) -/

/-- One entry of the model's batch-classification response, after JSON
extraction: exactly the fields `_classify_batch` reads (metadata.py
164-171).  `note_id` is optional because the code uses
`item.get("note_id", 0)`; the other keys are accessed with `item[...]`, so
they are modelled as present (a missing key would raise `KeyError` before
any entry is built). -/
structure RawClassificationItem where
  note_id : Option Int
  projects : List String
  action : String
  reasoning : String
  confidence_scores : List ℚ
deriving DecidableEq

/-- Build one `NoteClassification` from a response entry (the loop body of
metadata.py 164-171): `note_id` taken verbatim (default 0), `projects` and
`confidence_scores` each truncated to `top_n_projects`, an unknown action
string raising `ValueError` (`none`). -/
def convertItem (config : MetadataConfig) (item : RawClassificationItem) :
    Option NoteClassification :=
  match ActionType.ofString item.action with
  | none => none
  | some a =>
      some
        { note_id := item.note_id.getD 0,
          projects := item.projects.take config.top_n_projects,
          action := a,
          reasoning := item.reasoning,
          confidence_scores := item.confidence_scores.take config.top_n_projects }

def convertItems (config : MetadataConfig) :
    List RawClassificationItem → Option (List NoteClassification)
  | [] => some []
  | i :: is =>
    match convertItem config i, convertItems config is with
    | some c, some cs => some (c :: cs)
    | _, _ => none

/-- `_classify_batch` (metadata.py 96-193) after JSON extraction: build one
classification per response entry, then fail with the count-mismatch
`ValueError` when the number of entries differs from the batch size
(metadata.py 174-179).  The padding loop of metadata.py 180-187 sits after
the `raise` and is dead code, so it is not modelled.  `indices` (the
notes' global positions) is used only in the prompt and the dead code. -/
def classify_batch (config : MetadataConfig) (batch : List String) (indices : List Int)
    (response : List RawClassificationItem) : Except PyError (List NoteClassification) :=
  match convertItems config response with
  | none => Except.error PyError.invalidAction
  | some results =>
    if results.length ≠ batch.length then Except.error PyError.countMismatch
    else Except.ok results

/-- `_is_do_now` (metadata.py 264-266). -/
def is_do_now (classification : NoteClassification) : Bool :=
  classification.action = ActionType.DO_NOW

/-! ### Ranking stage (ranking.py) -/

/-- The fields of `RankingResult` as found in the parsed judge response
dict (`RankingResult(**data)`); `none` marks a missing key. -/
structure JudgeFields where
  title : Option String
  importance : Option Int
  urgency : Option Int
  impact : Option Int
  confidence : Option ℚ
  reasoning : Option String
deriving DecidableEq

/-- Pydantic construction of `RankingResult`: every field is required
(pydantic_models.py 150-157 declares no defaults), so any missing field
raises `ValidationError` (`none`). -/
def mkRankingResult (title : Option String) (importance : Option Int) (urgency : Option Int)
    (impact : Option Int) (confidence : Option ℚ) (reasoning : Option String) :
    Option RankingResult :=
  match title, importance, urgency, impact, confidence, reasoning with
  | some t, some i, some u, some im, some c, some r =>
      some { title := t, importance := i, urgency := u, impact := im, confidence := c,
             reasoning := r }
  | _, _, _, _, _, _ => none

/-- `_judge_rank` (ranking.py 99-175).  `judgeResponse` is the outcome of
the try block up to `json.loads`: `none` for a transport error or
unparseable output, `some f` for a parsed response with fields `f`.  The
try block then builds `RankingResult(**data)`; on any failure the except
branch (ranking.py 166-175) builds the fallback
`RankingResult(importance=2, urgency=1, impact=20, confidence=0.5,
reasoning=...)` — passing no `title` — and whatever that construction
raises propagates out of `_judge_rank`. -/
def judge_rank (note : String) (judgeResponse : Option JudgeFields) :
    Except PyError RankingResult :=
  match judgeResponse.bind
      (fun f => mkRankingResult f.title f.importance f.urgency f.impact f.confidence f.reasoning)
    with
  | some r => Except.ok r
  | none =>
    match mkRankingResult none (some 2) (some 1) (some 20) (some (1/2))
        (some "Error during ranking, using defaults") with
    | some r => Except.ok r
    | none => Except.error PyError.validationError

/-! ### Enrichment stage (enrichment.py) -/

/-- `_enrich_note` (enrichment.py 44-93): `llmOutcome` is the try block's
outcome (`some (lenses_used, enriched_text)` when call, JSON extraction and
key lookups succeed; `none` otherwise); any failure yields the empty
result. -/
def enrich_note (note : String) (llmOutcome : Option (List String × String)) :
    EnrichmentResult :=
  match llmOutcome with
  | some (lenses, text) => { enriched_text := text, lenses_used := lenses }
  | none => { enriched_text := "", lenses_used := [] }

/-- `EnrichmentProcessor.process` (enrichment.py 21-42): skip (`none`) when
the impact score is below the threshold, otherwise run `_enrich_note`. -/
def enrichment_process (config : EnrichmentConfig) (note : String) (impact_score : Int)
    (llmOutcome : Option (List String × String)) : Option EnrichmentResult :=
  if impact_score < config.impact_threshold then none
  else some (enrich_note note llmOutcome)

/-! ### Task stage (task.py) -/

/-- `TaskManager.determine_ai_use_status` (task.py 211-216). -/
def determine_ai_use_status (config : TaskConfig) (confidence : ℚ) : AIUseStatus :=
  if confidence < config.confidence_threshold then AIUseStatus.AMBIGUOUS
  else AIUseStatus.PROCESSED

/-! ### Orchestrator (run.py) -/

/-- Models the Python attribute access `metadata_result.classification.do_now`
(run.py 44 and 47).  `NoteClassification` declares exactly the fields in
`noteClassificationFields` — there is no `do_now` field (the derived flag
lives on `MetadataResult.is_do_now`) — and a pydantic model raises
`AttributeError` for an undeclared attribute, so this access fails
unconditionally. -/
def classificationDoNow (classification : NoteClassification) : Except PyError Bool :=
  Except.error PyError.attributeError

/-- `_create_do_now_task` (run.py 116-138), up to the Notion write (an
external side effect): the task built for the DO_NOW fast path.
`confidence_scores[0]` raises `IndexError` on an empty list.  The
`do_now=True` keyword is dropped: `NotionTask` declares no such field. -/
def create_do_now_task (note : String) (metadata_result : MetadataResult) :
    Except PyError NotionTask :=
  match metadata_result.classification.confidence_scores.get? 0 with
  | none => Except.error PyError.indexError
  | some conf =>
      Except.ok
        { title := generate_default_title note,
          projects := metadata_result.classification.projects,
          ai_use_status := AIUseStatus.PROCESSED,
          importance := 4,
          urgency := 4,
          impact := 100,
          confidence := some conf,
          original_note := note,
          enrichment := none }

/-- `process_note` (run.py 19-114), with the LLM-dependent stage outcomes
passed as parameters (`ranking_result` for step 2, `enrichmentLlm` for the
model call inside step 3) and the Notion writes (external side effects)
omitted.  The first use of the classification is the `.do_now` attribute
access of run.py 44/47, modelled by `classificationDoNow`. -/
def process_note (note : String) (metadata_result : MetadataResult) (task_config : TaskConfig)
    (enrichment_config : EnrichmentConfig) (ranking_result : RankingResult)
    (enrichmentLlm : Option (List String × String)) : Except PyError NotionTask :=
  match classificationDoNow metadata_result.classification with
  | Except.error e => Except.error e
  | Except.ok do_now =>
    if do_now then create_do_now_task note metadata_result
    else
      let enrichment_result :=
        enrichment_process enrichment_config note ranking_result.impact enrichmentLlm
      let ai_use_status := determine_ai_use_status task_config ranking_result.confidence
      Except.ok
        { title := ranking_result.title,
          projects := metadata_result.classification.projects,
          ai_use_status := ai_use_status,
          importance := ranking_result.importance,
          urgency := ranking_result.urgency,
          impact := ranking_result.impact,
          confidence := some ranking_result.confidence,
          original_note := note,
          enrichment := enrichment_result.map EnrichmentResult.enriched_text }

/-- Side condition of the reparsing lemmas: the trailing input does not
start with a decimal digit (otherwise it would extend a serialized
number). -/
def restOk : List Char → Prop
  | [] => True
  | c :: _ => isDigitChar c = false

/-! ## Theorems

First the supporting lemmas, then one theorem (plus witness or
counterexample where required) per claim C1-C10. -/

/-! ### Character and digit lemmas -/

theorem isDigitChar_digitChar {d : Nat} (hd : d < 10) : isDigitChar (digitChar d) = true := by
  interval_cases d <;> decide

theorem digitVal_digitChar {d : Nat} (hd : d < 10) : digitVal (digitChar d) = d := by
  interval_cases d <;> decide

theorem toNat_bounds_of_isDigitChar {c : Char} (h : isDigitChar c = true) :
    48 ≤ c.toNat ∧ c.toNat ≤ 57 := by
  simpa [isDigitChar, Bool.and_eq_true, decide_eq_true_eq] using h

theorem isJsonWs_of_isDigitChar {c : Char} (h : isDigitChar c = true) : isJsonWs c = false := by
  obtain ⟨h1, h2⟩ := toNat_bounds_of_isDigitChar h
  cases hw : isJsonWs c with
  | false => rfl
  | true =>
    exfalso
    simp only [isJsonWs, Bool.or_eq_true, decide_eq_true_eq] at hw
    rcases hw with ((h' | h') | h') | h' <;> subst h' <;> simp_all

theorem ne_of_isDigitChar {c d : Char} (h : isDigitChar c = true) (hd : isDigitChar d = false) :
    c ≠ d := by
  intro h'
  subst h'
  rw [h] at hd
  exact absurd hd (by decide)

theorem charsVal_append_digit (a : List Char) (c : Char) :
    charsVal (a ++ [c]) = 10 * charsVal a + digitVal c := by
  simp [charsVal, List.foldl_append]

theorem natToCharsAux_digits :
    ∀ (fuel n : Nat), ∀ c ∈ natToCharsAux fuel n, isDigitChar c = true := by
  intro fuel
  induction fuel with
  | zero => intro n c hc; simp [natToCharsAux] at hc
  | succ fuel ih =>
    intro n c hc
    by_cases hn : n = 0
    · simp [natToCharsAux, hn] at hc
    · simp only [natToCharsAux, if_neg hn, List.mem_append, List.mem_singleton] at hc
      rcases hc with hc | hc
      · exact ih _ _ hc
      · subst hc
        exact isDigitChar_digitChar (Nat.mod_lt _ (by norm_num))

theorem charsVal_natToCharsAux :
    ∀ (fuel n : Nat), n < 10 ^ fuel → charsVal (natToCharsAux fuel n) = n := by
  intro fuel
  induction fuel with
  | zero =>
    intro n hn
    interval_cases n
    simp [natToCharsAux, charsVal]
  | succ fuel ih =>
    intro n hn
    by_cases h0 : n = 0
    · simp [natToCharsAux, h0, charsVal]
    · rw [natToCharsAux, if_neg h0, charsVal_append_digit, ih _ ?_,
        digitVal_digitChar (Nat.mod_lt _ (by norm_num))]
      · omega
      · rw [pow_succ] at hn
        exact (Nat.div_lt_iff_lt_mul (by norm_num)).mpr hn

theorem natToChars_digits (n : Nat) : ∀ c ∈ natToChars n, isDigitChar c = true := by
  intro c hc
  unfold natToChars at hc
  by_cases h0 : n = 0
  · rw [if_pos h0, List.mem_singleton] at hc
    subst hc; decide
  · rw [if_neg h0] at hc
    exact natToCharsAux_digits _ _ _ hc

theorem natToChars_ne_nil (n : Nat) : natToChars n ≠ [] := by
  unfold natToChars
  by_cases h0 : n = 0
  · simp [h0]
  · rw [if_neg h0]
    rw [natToCharsAux, if_neg h0]
    simp

theorem charsVal_natToChars (n : Nat) : charsVal (natToChars n) = n := by
  unfold natToChars
  by_cases h0 : n = 0
  · subst h0; decide
  · rw [if_neg h0]
    refine charsVal_natToCharsAux _ _ ?_
    calc n < 10 ^ n := Nat.lt_pow_self (by norm_num) n
    _ ≤ 10 ^ (n + 1) := Nat.pow_le_pow_right (by norm_num) (Nat.le_succ n)

theorem takeWhile_append_of_all {p : Char → Bool} :
    ∀ (l r : List Char), (∀ c ∈ l, p c = true) → (l ++ r).takeWhile p = l ++ r.takeWhile p := by
  intro l
  induction l with
  | nil => intro r _; rfl
  | cons c l ih =>
    intro r h
    have hc : p c = true := h c (List.mem_cons_self _ _)
    simp only [List.cons_append, List.takeWhile_cons, hc, if_true]
    rw [ih r (fun d hd => h d (List.mem_cons_of_mem _ hd))]

theorem dropWhile_append_of_all {p : Char → Bool} :
    ∀ (l r : List Char), (∀ c ∈ l, p c = true) → (l ++ r).dropWhile p = r.dropWhile p := by
  intro l
  induction l with
  | nil => intro r _; rfl
  | cons c l ih =>
    intro r h
    have hc : p c = true := h c (List.mem_cons_self _ _)
    simp only [List.cons_append, List.dropWhile_cons, hc, if_true]
    exact ih r (fun d hd => h d (List.mem_cons_of_mem _ hd))

theorem takeWhile_digit_eq_nil_of_restOk {r : List Char} (hr : restOk r) :
    r.takeWhile isDigitChar = [] := by
  cases r with
  | nil => rfl
  | cons c r =>
    simp only [restOk] at hr
    simp [List.takeWhile_cons, hr]

theorem dropWhile_digit_eq_self_of_restOk {r : List Char} (hr : restOk r) :
    r.dropWhile isDigitChar = r := by
  cases r with
  | nil => rfl
  | cons c r =>
    simp only [restOk] at hr
    simp [List.dropWhile_cons, hr]

theorem parseNatPart_natToChars (n : Nat) (r : List Char) (hr : restOk r) :
    parseNatPart (natToChars n ++ r) = some (n, r) := by
  unfold parseNatPart
  rw [takeWhile_append_of_all _ _ (natToChars_digits n),
    takeWhile_digit_eq_nil_of_restOk hr, List.append_nil,
    dropWhile_append_of_all _ _ (natToChars_digits n),
    dropWhile_digit_eq_self_of_restOk hr]
  simp [List.isEmpty_iff, natToChars_ne_nil n, charsVal_natToChars n]

theorem parseStringBody_cons_quote (cs : List Char) :
    parseStringBody (quoteChar :: cs) = some ([], cs) := by
  rw [parseStringBody.eq_def]
  simp

theorem parseStringBody_cons_plain {c : Char} (h1 : ¬c = quoteChar) (h2 : ¬c = backslashChar)
    (cs : List Char) :
    parseStringBody (c :: cs) = (parseStringBody cs).map (fun p => (c :: p.1, p.2)) := by
  rw [parseStringBody.eq_def]
  simp [h1, h2]

theorem parseStringBody_cons_escape {e u : Char} (hu : unescapeChar e = some u)
    (cs : List Char) :
    parseStringBody (backslashChar :: e :: cs) =
      (parseStringBody cs).map (fun p => (u :: p.1, p.2)) := by
  rw [parseStringBody.eq_def]
  simp [hu, show ¬(backslashChar = quoteChar) from by decide]

theorem parseStringBody_escape :
    ∀ (s r : List Char), parseStringBody (escapeList s ++ (quoteChar :: r)) = some (s, r) := by
  intro s
  induction s with
  | nil =>
    intro r
    exact parseStringBody_cons_quote r
  | cons c s ih =>
    intro r
    show parseStringBody ((escapeChar c ++ escapeList s) ++ (quoteChar :: r)) = _
    rw [List.append_assoc]
    by_cases h1 : c = quoteChar
    · subst h1
      rw [escapeChar, if_pos rfl]
      simp [parseStringBody_cons_escape (by decide : unescapeChar quoteChar = some quoteChar),
        ih r]
    · by_cases h2 : c = backslashChar
      · subst h2
        rw [escapeChar, if_neg (by decide), if_pos rfl]
        simp [parseStringBody_cons_escape
          (by decide : unescapeChar backslashChar = some backslashChar), ih r]
      · by_cases h3 : c = '\n'
        · subst h3
          rw [escapeChar, if_neg (by decide), if_neg (by decide), if_pos rfl]
          simp [parseStringBody_cons_escape (by decide : unescapeChar 'n' = some '\n'), ih r]
        · by_cases h4 : c = '\t'
          · subst h4
            rw [escapeChar, if_neg (by decide), if_neg (by decide), if_neg (by decide), if_pos rfl]
            simp [parseStringBody_cons_escape (by decide : unescapeChar 't' = some '\t'), ih r]
          · by_cases h5 : c = '\r'
            · subst h5
              rw [escapeChar, if_neg (by decide), if_neg (by decide), if_neg (by decide),
                if_neg (by decide), if_pos rfl]
              simp [parseStringBody_cons_escape (by decide : unescapeChar 'r' = some '\r'), ih r]
            · rw [escapeChar, if_neg h1, if_neg h2, if_neg h3, if_neg h4, if_neg h5]
              simp [parseStringBody_cons_plain h1 h2, ih r]

/-! ### Head shape of serialized values, and `parseValue` step lemmas -/

theorem jsonFuel_pos : ∀ v : Json, 1 ≤ jsonFuel v := by
  intro v
  cases v <;> simp [jsonFuel]

theorem jsonFuelElems_pos : ∀ xs : List Json, 1 ≤ jsonFuelElems xs := by
  intro xs
  cases xs with
  | nil => simp [jsonFuelElems]
  | cons x xs => simp only [jsonFuelElems]; omega

theorem jsonFuelPairs_pos : ∀ kvs : List (List Char × Json), 1 ≤ jsonFuelPairs kvs := by
  intro kvs
  cases kvs with
  | nil => simp [jsonFuelPairs]
  | cons kv kvs => obtain ⟨k, v⟩ := kv; simp only [jsonFuelPairs]; omega

theorem skipWs_cons_of_not_ws {c : Char} (h : isJsonWs c = false) (cs : List Char) :
    skipWs (c :: cs) = c :: cs := by
  simp [skipWs, List.dropWhile_cons, h]

/-- The first character of any serialized value: never whitespace and never
one of the delimiters `]`, `}`, `,`. -/
theorem serialize_head (v : Json) :
    ∃ c cs, serialize v = c :: cs ∧ isJsonWs c = false ∧ c ≠ rightBrackChar ∧
      c ≠ rightBraceChar ∧ c ≠ commaChar := by
  cases v with
  | null =>
    exact ⟨'n', ['u', 'l', 'l'], by simp [serialize], by decide, by decide, by decide, by decide⟩
  | bool b =>
    cases b with
    | true =>
      exact ⟨'t', ['r', 'u', 'e'], by simp [serialize], by decide, by decide, by decide,
        by decide⟩
    | false =>
      exact ⟨'f', ['a', 'l', 's', 'e'], by simp [serialize], by decide, by decide, by decide,
        by decide⟩
  | num n =>
    by_cases hn : n < 0
    · exact ⟨'-', natToChars n.natAbs, by simp [serialize, hn], by decide, by decide, by decide,
        by decide⟩
    · obtain ⟨c, cs, hc⟩ := List.exists_cons_of_ne_nil (natToChars_ne_nil n.toNat)
      have hd : isDigitChar c = true := by
        refine natToChars_digits n.toNat c ?_
        rw [hc]; exact List.mem_cons_self _ _
      exact ⟨c, cs, by simp [serialize, hn, hc], isJsonWs_of_isDigitChar hd,
        ne_of_isDigitChar hd (by decide), ne_of_isDigitChar hd (by decide),
        ne_of_isDigitChar hd (by decide)⟩
  | str s =>
    exact ⟨quoteChar, escapeList s ++ [quoteChar], by simp [serialize], by decide, by decide,
      by decide, by decide⟩
  | arr xs =>
    exact ⟨leftBrackChar, serializeElems xs, by simp [serialize], by decide, by decide,
      by decide, by decide⟩
  | obj kvs =>
    exact ⟨leftBraceChar, serializePairs kvs, by simp [serialize], by decide, by decide,
      by decide, by decide⟩

theorem parseValue_succ_null (f : Nat) (rest : List Char) :
    parseValue (f + 1) (serialize Json.null ++ rest) = some (Json.null, rest) := by
  simp [serialize, parseValue, skipWs, isJsonWs, quoteChar, leftBraceChar, leftBrackChar]

theorem parseValue_succ_bool (f : Nat) (b : Bool) (rest : List Char) :
    parseValue (f + 1) (serialize (Json.bool b) ++ rest) = some (Json.bool b, rest) := by
  cases b <;>
    simp [serialize, parseValue, skipWs, isJsonWs, quoteChar, leftBraceChar, leftBrackChar]

theorem parseValue_succ_quote (f : Nat) (cs : List Char) :
    parseValue (f + 1) (quoteChar :: cs) =
      (parseStringBody cs).map (fun p => (Json.str p.1, p.2)) := by
  simp only [parseValue, skipWs_cons_of_not_ws (show isJsonWs quoteChar = false by decide)]
  exact if_pos trivial

theorem parseValue_succ_lbrace (f : Nat) (cs : List Char) :
    parseValue (f + 1) (leftBraceChar :: cs) = parseObjectBody f (skipWs cs) := by
  simp only [parseValue, skipWs_cons_of_not_ws (show isJsonWs leftBraceChar = false by decide)]
  rw [if_neg (show ¬(leftBraceChar = quoteChar) by decide)]
  exact if_pos trivial

theorem parseValue_succ_lbrack (f : Nat) (cs : List Char) :
    parseValue (f + 1) (leftBrackChar :: cs) = parseArrayBody f (skipWs cs) := by
  simp only [parseValue, skipWs_cons_of_not_ws (show isJsonWs leftBrackChar = false by decide)]
  rw [if_neg (show ¬(leftBrackChar = quoteChar) by decide),
    if_neg (show ¬(leftBrackChar = leftBraceChar) by decide)]
  exact if_pos trivial

theorem parseValue_succ_minus (f : Nat) (cs : List Char) :
    parseValue (f + 1) ('-' :: cs) =
      (parseNatPart cs).map (fun p => (Json.num (-(p.1 : Int)), p.2)) := by
  simp only [parseValue, skipWs_cons_of_not_ws (show isJsonWs '-' = false by decide)]
  rw [if_neg (show ¬('-' = quoteChar) by decide), if_neg (show ¬('-' = leftBraceChar) by decide),
    if_neg (show ¬('-' = leftBrackChar) by decide), if_neg (show ¬('-' = 'n') by decide),
    if_neg (show ¬('-' = 't') by decide), if_neg (show ¬('-' = 'f') by decide)]
  exact if_pos trivial

theorem parseValue_succ_digit {c : Char} (hd : isDigitChar c = true) (f : Nat) (cs : List Char) :
    parseValue (f + 1) (c :: cs) =
      (parseNatPart (c :: cs)).map (fun p => (Json.num (p.1 : Int), p.2)) := by
  simp only [parseValue, skipWs_cons_of_not_ws (isJsonWs_of_isDigitChar hd)]
  rw [if_neg (ne_of_isDigitChar hd (by decide)), if_neg (ne_of_isDigitChar hd (by decide)),
    if_neg (ne_of_isDigitChar hd (by decide)), if_neg (ne_of_isDigitChar hd (by decide)),
    if_neg (ne_of_isDigitChar hd (by decide)), if_neg (ne_of_isDigitChar hd (by decide)),
    if_neg (ne_of_isDigitChar hd (by decide)), if_pos hd]

theorem parseValue_serialize_num (f : Nat) (n : Int) (rest : List Char) (hrest : restOk rest) :
    parseValue (f + 1) (serialize (Json.num n) ++ rest) = some (Json.num n, rest) := by
  by_cases hn : n < 0
  · rw [show serialize (Json.num n) = '-' :: natToChars n.natAbs from by simp [serialize, hn],
      List.cons_append, parseValue_succ_minus, parseNatPart_natToChars _ _ hrest]
    have h : -((n.natAbs : Int)) = n := by omega
    simp only [Option.map_some']
    rw [h]
  · obtain ⟨c, cs, hc⟩ := List.exists_cons_of_ne_nil (natToChars_ne_nil n.toNat)
    have hd : isDigitChar c = true := by
      refine natToChars_digits n.toNat c ?_
      rw [hc]; exact List.mem_cons_self _ _
    rw [show serialize (Json.num n) = natToChars n.toNat from by simp [serialize, hn], hc,
      List.cons_append, parseValue_succ_digit hd, ← List.cons_append, ← hc,
      parseNatPart_natToChars _ _ hrest]
    have h : ((n.toNat : Int)) = n := Int.toNat_of_nonneg (by omega)
    simp only [Option.map_some']
    rw [h]

theorem parseValue_serialize_str (f : Nat) (s : List Char) (rest : List Char) :
    parseValue (f + 1) (serialize (Json.str s) ++ rest) = some (Json.str s, rest) := by
  rw [show serialize (Json.str s) = quoteChar :: (escapeList s ++ [quoteChar]) from
      by simp [serialize], List.cons_append, List.append_assoc, List.singleton_append,
    parseValue_succ_quote, parseStringBody_escape]
  rfl

theorem serializeElems_head (xs : List Json) :
    ∃ c cs, serializeElems xs = c :: cs ∧ isJsonWs c = false := by
  cases xs with
  | nil => exact ⟨rightBrackChar, [], by simp [serializeElems], by decide⟩
  | cons x xs =>
    obtain ⟨c, cs, hc, hw, -, -, -⟩ := serialize_head x
    exact ⟨c, cs ++ serializeRest xs, by simp [serializeElems, hc], hw⟩

theorem serializeRest_head (xs : List Json) :
    ∃ c cs, serializeRest xs = c :: cs ∧ isJsonWs c = false ∧ isDigitChar c = false := by
  cases xs with
  | nil => exact ⟨rightBrackChar, [], by simp [serializeRest], by decide, by decide⟩
  | cons x xs =>
    exact ⟨commaChar, serialize x ++ serializeRest xs, by simp [serializeRest], by decide,
      by decide⟩

theorem serializePairs_head (kvs : List (List Char × Json)) :
    ∃ c cs, serializePairs kvs = c :: cs ∧ isJsonWs c = false := by
  cases kvs with
  | nil => exact ⟨rightBraceChar, [], by simp [serializePairs], by decide⟩
  | cons kv kvs =>
    obtain ⟨k, v⟩ := kv
    exact ⟨quoteChar, escapeList k ++ [quoteChar, colonChar] ++ serialize v ++
      serializePairsRest kvs, by simp [serializePairs], by decide⟩

theorem serializePairsRest_head (kvs : List (List Char × Json)) :
    ∃ c cs, serializePairsRest kvs = c :: cs ∧ isJsonWs c = false ∧ isDigitChar c = false := by
  cases kvs with
  | nil => exact ⟨rightBraceChar, [], by simp [serializePairsRest], by decide, by decide⟩
  | cons kv kvs =>
    obtain ⟨k, v⟩ := kv
    exact ⟨commaChar, quoteChar :: (escapeList k ++ [quoteChar, colonChar] ++ serialize v ++
      serializePairsRest kvs), by simp [serializePairsRest], by decide, by decide⟩

theorem skipWs_append_of_head {l : List Char} (r : List Char)
    (h : ∃ c cs, l = c :: cs ∧ isJsonWs c = false) : skipWs (l ++ r) = l ++ r := by
  obtain ⟨c, cs, hc, hw⟩ := h
  rw [hc, List.cons_append, skipWs_cons_of_not_ws hw]

theorem restOk_cons {c : Char} (h : isDigitChar c = false) (l : List Char) : restOk (c :: l) := h

theorem restOk_append_of_head {l : List Char} (r : List Char)
    (h : ∃ c cs, l = c :: cs ∧ isDigitChar c = false) : restOk (l ++ r) := by
  obtain ⟨c, cs, hc, hd⟩ := h
  rw [hc, List.cons_append]
  exact restOk_cons hd _

/-- Reparsing a serialized value (with any non-digit-leading trailing
input) recovers the value exactly, given enough fuel — simultaneously for
all five parser entry points, by strong induction on the fuel. -/
theorem parse_serialize_master :
    ∀ f : Nat,
      (∀ v rest, jsonFuel v ≤ f → restOk rest →
        parseValue f (serialize v ++ rest) = some (v, rest)) ∧
      (∀ xs rest, jsonFuelElems xs ≤ f → restOk rest →
        parseArrayBody f (serializeElems xs ++ rest) = some (Json.arr xs, rest)) ∧
      (∀ xs rest, jsonFuelElems xs ≤ f → restOk rest →
        parseArrayTail f (serializeRest xs ++ rest) = some (xs, rest)) ∧
      (∀ kvs rest, jsonFuelPairs kvs ≤ f → restOk rest →
        parseObjectBody f (serializePairs kvs ++ rest) = some (Json.obj kvs, rest)) ∧
      (∀ kvs rest, jsonFuelPairs kvs ≤ f → restOk rest →
        parseObjectTail f (serializePairsRest kvs ++ rest) = some (kvs, rest)) := by
  intro f
  induction f using Nat.strong_induction_on with
  | _ f ih =>
  refine ⟨?_, ?_, ?_, ?_, ?_⟩
  · -- parseValue
    intro v rest hf hrest
    cases v with
    | null =>
      simp only [jsonFuel] at hf
      obtain ⟨f', rfl⟩ : ∃ f', f = f' + 1 := ⟨f - 1, by omega⟩
      exact parseValue_succ_null f' rest
    | bool b =>
      simp only [jsonFuel] at hf
      obtain ⟨f', rfl⟩ : ∃ f', f = f' + 1 := ⟨f - 1, by omega⟩
      exact parseValue_succ_bool f' b rest
    | num n =>
      simp only [jsonFuel] at hf
      obtain ⟨f', rfl⟩ : ∃ f', f = f' + 1 := ⟨f - 1, by omega⟩
      exact parseValue_serialize_num f' n rest hrest
    | str s =>
      simp only [jsonFuel] at hf
      obtain ⟨f', rfl⟩ : ∃ f', f = f' + 1 := ⟨f - 1, by omega⟩
      exact parseValue_serialize_str f' s rest
    | arr xs =>
      simp only [jsonFuel] at hf
      have h1 := jsonFuelElems_pos xs
      obtain ⟨f', rfl⟩ : ∃ f', f = f' + 1 := ⟨f - 1, by omega⟩
      rw [show serialize (Json.arr xs) = leftBrackChar :: serializeElems xs from
          by simp [serialize], List.cons_append, parseValue_succ_lbrack,
        skipWs_append_of_head rest (serializeElems_head xs)]
      exact (ih f' (by omega)).2.1 xs rest (by omega) hrest
    | obj kvs =>
      simp only [jsonFuel] at hf
      have h1 := jsonFuelPairs_pos kvs
      obtain ⟨f', rfl⟩ : ∃ f', f = f' + 1 := ⟨f - 1, by omega⟩
      rw [show serialize (Json.obj kvs) = leftBraceChar :: serializePairs kvs from
          by simp [serialize], List.cons_append, parseValue_succ_lbrace,
        skipWs_append_of_head rest (serializePairs_head kvs)]
      exact (ih f' (by omega)).2.2.2.1 kvs rest (by omega) hrest
  · -- parseArrayBody
    intro xs rest hf hrest
    cases xs with
    | nil =>
      simp only [jsonFuelElems] at hf
      obtain ⟨f', rfl⟩ : ∃ f', f = f' + 1 := ⟨f - 1, by omega⟩
      simp [serializeElems, parseArrayBody]
    | cons x xs =>
      simp only [jsonFuelElems] at hf
      have h1 := jsonFuel_pos x
      have h2 := jsonFuelElems_pos xs
      obtain ⟨f', rfl⟩ : ∃ f', f = f' + 1 := ⟨f - 1, by omega⟩
      obtain ⟨c, cs, hc, hcw, hc1, hc2, hc3⟩ := serialize_head x
      have hrest2 : restOk (serializeRest xs ++ rest) :=
        restOk_append_of_head rest ((serializeRest_head xs).imp
          (fun c h => h.imp (fun cs h => ⟨h.1, h.2.2⟩)))
      have hx : parseValue f' (serialize x ++ (serializeRest xs ++ rest)) =
          some (x, serializeRest xs ++ rest) :=
        (ih f' (by omega)).1 x _ (by omega) hrest2
      have ht : parseArrayTail f' (skipWs (serializeRest xs ++ rest)) = some (xs, rest) := by
        rw [skipWs_append_of_head rest ((serializeRest_head xs).imp
          (fun c h => h.imp (fun cs h => ⟨h.1, h.2.1⟩)))]
        exact (ih f' (by omega)).2.2.1 xs rest (by omega) hrest
      rw [show serializeElems (x :: xs) = serialize x ++ serializeRest xs from
          by simp [serializeElems], List.append_assoc, hc, List.cons_append]
      rw [hc] at hx
      simp only [List.cons_append] at hx
      simp [parseArrayBody, hc1, hx, ht]
  · -- parseArrayTail
    intro xs rest hf hrest
    cases xs with
    | nil =>
      simp only [jsonFuelElems] at hf
      obtain ⟨f', rfl⟩ : ∃ f', f = f' + 1 := ⟨f - 1, by omega⟩
      simp [serializeRest, parseArrayTail]
    | cons x xs =>
      simp only [jsonFuelElems] at hf
      have h1 := jsonFuel_pos x
      have h2 := jsonFuelElems_pos xs
      obtain ⟨f', rfl⟩ : ∃ f', f = f' + 1 := ⟨f - 1, by omega⟩
      have hrest2 : restOk (serializeRest xs ++ rest) :=
        restOk_append_of_head rest ((serializeRest_head xs).imp
          (fun c h => h.imp (fun cs h => ⟨h.1, h.2.2⟩)))
      have hskip : skipWs (serialize x ++ (serializeRest xs ++ rest)) =
          serialize x ++ (serializeRest xs ++ rest) :=
        skipWs_append_of_head _ ((serialize_head x).imp
          (fun c h => h.imp (fun cs h => ⟨h.1, h.2.1⟩)))
      have hx : parseValue f' (serialize x ++ (serializeRest xs ++ rest)) =
          some (x, serializeRest xs ++ rest) :=
        (ih f' (by omega)).1 x _ (by omega) hrest2
      have ht : parseArrayTail f' (skipWs (serializeRest xs ++ rest)) = some (xs, rest) := by
        rw [skipWs_append_of_head rest ((serializeRest_head xs).imp
          (fun c h => h.imp (fun cs h => ⟨h.1, h.2.1⟩)))]
        exact (ih f' (by omega)).2.2.1 xs rest (by omega) hrest
      rw [show serializeRest (x :: xs) = commaChar :: (serialize x ++ serializeRest xs) from
          by simp [serializeRest], List.cons_append, List.append_assoc]
      simp [parseArrayTail, show ¬(commaChar = rightBrackChar) from by decide, hskip, hx, ht]
  · -- parseObjectBody
    intro kvs rest hf hrest
    cases kvs with
    | nil =>
      simp only [jsonFuelPairs] at hf
      obtain ⟨f', rfl⟩ : ∃ f', f = f' + 1 := ⟨f - 1, by omega⟩
      simp [serializePairs, parseObjectBody]
    | cons kv kvs =>
      obtain ⟨k, v⟩ := kv
      simp only [jsonFuelPairs] at hf
      have h1 := jsonFuel_pos v
      have h2 := jsonFuelPairs_pos kvs
      obtain ⟨f', rfl⟩ : ∃ f', f = f' + 1 := ⟨f - 1, by omega⟩
      have hrest2 : restOk (serializePairsRest kvs ++ rest) :=
        restOk_append_of_head rest ((serializePairsRest_head kvs).imp
          (fun c h => h.imp (fun cs h => ⟨h.1, h.2.2⟩)))
      have hskipv : skipWs (serialize v ++ (serializePairsRest kvs ++ rest)) =
          serialize v ++ (serializePairsRest kvs ++ rest) :=
        skipWs_append_of_head _ ((serialize_head v).imp
          (fun c h => h.imp (fun cs h => ⟨h.1, h.2.1⟩)))
      have hv : parseValue f' (serialize v ++ (serializePairsRest kvs ++ rest)) =
          some (v, serializePairsRest kvs ++ rest) :=
        (ih f' (by omega)).1 v _ (by omega) hrest2
      have ht : parseObjectTail f' (skipWs (serializePairsRest kvs ++ rest)) =
          some (kvs, rest) := by
        rw [skipWs_append_of_head rest ((serializePairsRest_head kvs).imp
          (fun c h => h.imp (fun cs h => ⟨h.1, h.2.1⟩)))]
        exact (ih f' (by omega)).2.2.2.2 kvs rest (by omega) hrest
      have hk : parseStringBody (escapeList k ++
          (quoteChar :: (colonChar :: (serialize v ++ (serializePairsRest kvs ++ rest))))) =
          some (k, colonChar :: (serialize v ++ (serializePairsRest kvs ++ rest))) :=
        parseStringBody_escape k
          (colonChar :: (serialize v ++ (serializePairsRest kvs ++ rest)))
      have hs1 : skipWs (colonChar :: (serialize v ++ (serializePairsRest kvs ++ rest))) =
          colonChar :: (serialize v ++ (serializePairsRest kvs ++ rest)) :=
        skipWs_cons_of_not_ws (by decide) _
      rw [show serializePairs ((k, v) :: kvs) =
          quoteChar :: (escapeList k ++ (quoteChar :: (colonChar :: (serialize v ++
            serializePairsRest kvs)))) from by simp [serializePairs], List.cons_append]
      simp [parseObjectBody, show ¬(quoteChar = rightBraceChar) from by decide, hk, hs1,
        hskipv, hv, ht]
  · -- parseObjectTail
    intro kvs rest hf hrest
    cases kvs with
    | nil =>
      simp only [jsonFuelPairs] at hf
      obtain ⟨f', rfl⟩ : ∃ f', f = f' + 1 := ⟨f - 1, by omega⟩
      simp [serializePairsRest, parseObjectTail]
    | cons kv kvs =>
      obtain ⟨k, v⟩ := kv
      simp only [jsonFuelPairs] at hf
      have h1 := jsonFuel_pos v
      have h2 := jsonFuelPairs_pos kvs
      obtain ⟨f', rfl⟩ : ∃ f', f = f' + 1 := ⟨f - 1, by omega⟩
      have hrest2 : restOk (serializePairsRest kvs ++ rest) :=
        restOk_append_of_head rest ((serializePairsRest_head kvs).imp
          (fun c h => h.imp (fun cs h => ⟨h.1, h.2.2⟩)))
      have hv : parseValue f' (serialize v ++ (serializePairsRest kvs ++ rest)) =
          some (v, serializePairsRest kvs ++ rest) :=
        (ih f' (by omega)).1 v _ (by omega) hrest2
      have ht : parseObjectTail f' (skipWs (serializePairsRest kvs ++ rest)) =
          some (kvs, rest) := by
        rw [skipWs_append_of_head rest ((serializePairsRest_head kvs).imp
          (fun c h => h.imp (fun cs h => ⟨h.1, h.2.1⟩)))]
        exact (ih f' (by omega)).2.2.2.2 kvs rest (by omega) hrest
      have hskipv : skipWs (serialize v ++ (serializePairsRest kvs ++ rest)) =
          serialize v ++ (serializePairsRest kvs ++ rest) :=
        skipWs_append_of_head _ ((serialize_head v).imp
          (fun c h => h.imp (fun cs h => ⟨h.1, h.2.1⟩)))
      have hk : parseStringBody (escapeList k ++
          (quoteChar :: (colonChar :: (serialize v ++ (serializePairsRest kvs ++ rest))))) =
          some (k, colonChar :: (serialize v ++ (serializePairsRest kvs ++ rest))) :=
        parseStringBody_escape k
          (colonChar :: (serialize v ++ (serializePairsRest kvs ++ rest)))
      have hs0 : skipWs (quoteChar :: (escapeList k ++
          (quoteChar :: (colonChar :: (serialize v ++ (serializePairsRest kvs ++ rest)))))) =
          quoteChar :: (escapeList k ++
            (quoteChar :: (colonChar :: (serialize v ++ (serializePairsRest kvs ++ rest))))) :=
        skipWs_cons_of_not_ws (by decide) _
      have hs1 : skipWs (colonChar :: (serialize v ++ (serializePairsRest kvs ++ rest))) =
          colonChar :: (serialize v ++ (serializePairsRest kvs ++ rest)) :=
        skipWs_cons_of_not_ws (by decide) _
      rw [show serializePairsRest ((k, v) :: kvs) =
          commaChar :: (quoteChar :: (escapeList k ++ (quoteChar :: (colonChar ::
            (serialize v ++ serializePairsRest kvs))))) from by simp [serializePairsRest],
        List.cons_append]
      simp [parseObjectTail, show ¬(commaChar = rightBraceChar) from by decide, hk, hs0, hs1,
        hskipv, hv, ht]

/-- The fuel needed to reparse a serialized value is within the fuel budget
`json_loads` allots (shown by strong induction on the fuel measure). -/
theorem serialize_length_bound :
    ∀ N : Nat,
      (∀ v, jsonFuel v ≤ N → jsonFuel v + 1 ≤ 2 * (serialize v).length) ∧
      (∀ xs, jsonFuelElems xs ≤ N →
        jsonFuelElems xs + 1 ≤ 2 * (serializeElems xs).length ∧
        jsonFuelElems xs + 1 ≤ 2 * (serializeRest xs).length) ∧
      (∀ kvs, jsonFuelPairs kvs ≤ N →
        jsonFuelPairs kvs + 1 ≤ 2 * (serializePairs kvs).length ∧
        jsonFuelPairs kvs + 1 ≤ 2 * (serializePairsRest kvs).length) := by
  intro N
  induction N using Nat.strong_induction_on with
  | _ N ih =>
  refine ⟨?_, ?_, ?_⟩
  · intro v hv
    cases v with
    | null => simp [jsonFuel, serialize]
    | bool b => cases b <;> simp [jsonFuel, serialize]
    | num n =>
      have h1 : 1 ≤ (natToChars n.natAbs).length :=
        List.length_pos.mpr (natToChars_ne_nil _)
      have h2 : 1 ≤ (natToChars n.toNat).length :=
        List.length_pos.mpr (natToChars_ne_nil _)
      by_cases hn : n < 0 <;> simp [jsonFuel, serialize, hn] <;> omega
    | str s => simp [jsonFuel, serialize]
    | arr xs =>
      simp only [jsonFuel] at hv ⊢
      have h1 := jsonFuelElems_pos xs
      have hx := ((ih (N - 1) (by omega)).2.1 xs (by omega)).1
      simp only [serialize, List.length_cons]
      omega
    | obj kvs =>
      simp only [jsonFuel] at hv ⊢
      have h1 := jsonFuelPairs_pos kvs
      have hx := ((ih (N - 1) (by omega)).2.2 kvs (by omega)).1
      simp only [serialize, List.length_cons]
      omega
  · intro xs hxs
    cases xs with
    | nil => simp [jsonFuelElems, serializeElems, serializeRest]
    | cons x xs =>
      simp only [jsonFuelElems] at hxs ⊢
      have h1 := jsonFuel_pos x
      have h2 := jsonFuelElems_pos xs
      have hx := (ih (N - 1) (by omega)).1 x (by omega)
      have hr := ((ih (N - 1) (by omega)).2.1 xs (by omega)).2
      simp only [serializeElems, serializeRest, List.length_append, List.length_cons]
      omega
  · intro kvs hkvs
    cases kvs with
    | nil => simp [jsonFuelPairs, serializePairs, serializePairsRest]
    | cons kv kvs =>
      obtain ⟨k, v⟩ := kv
      simp only [jsonFuelPairs] at hkvs ⊢
      have h1 := jsonFuel_pos v
      have h2 := jsonFuelPairs_pos kvs
      have hx := (ih (N - 1) (by omega)).1 v (by omega)
      have hr := ((ih (N - 1) (by omega)).2.2 kvs (by omega)).2
      simp only [serializePairs, serializePairsRest, List.length_append, List.length_cons]
      omega

/-- Reparsing a serialized value succeeds: the model of
`json.loads(json.dumps(v))` returns `v`. -/
theorem json_loads_serialize (v : Json) : json_loads (serialize v) = some v := by
  have hb : jsonFuel v ≤ 2 * (serialize v).length + 2 := by
    have := (serialize_length_bound (jsonFuel v)).1 v (le_refl _)
    omega
  have h := (parse_serialize_master (2 * (serialize v).length + 2)).1 v [] hb trivial
  rw [List.append_nil] at h
  unfold json_loads
  rw [h]
  simp [skipWs]

/-! ### Lemmas about the extraction strategies -/

theorem parseValue_backtick_head (f : Nat) (cs : List Char) :
    parseValue f (backtickChar :: cs) = none := by
  cases f with
  | zero => simp [parseValue]
  | succ f =>
    simp only [parseValue,
      skipWs_cons_of_not_ws (show isJsonWs backtickChar = false by decide)]
    rw [if_neg (by decide : ¬(backtickChar = quoteChar)),
      if_neg (by decide : ¬(backtickChar = leftBraceChar)),
      if_neg (by decide : ¬(backtickChar = leftBrackChar)),
      if_neg (by decide : ¬(backtickChar = 'n')), if_neg (by decide : ¬(backtickChar = 't')),
      if_neg (by decide : ¬(backtickChar = 'f')), if_neg (by decide : ¬(backtickChar = '-')),
      if_neg (by decide : ¬(isDigitChar backtickChar = true))]

theorem json_loads_backtick_head (cs : List Char) :
    json_loads (backtickChar :: cs) = none := by
  unfold json_loads
  rw [parseValue_backtick_head]

theorem stripPre_append (p r : List Char) : stripPre p (p ++ r) = some r := by
  induction p with
  | nil => rfl
  | cons c p ih => simp [stripPre, ih]

theorem stripPre_none_of_head_ne {p : Char} (ps : List Char) {c : Char} (h : ¬(p = c))
    (cs : List Char) : stripPre (p :: ps) (c :: cs) = none := by
  simp [stripPre, h]

theorem isPrefixOf_refl_append (p r : List Char) : p.isPrefixOf (p ++ r) = true :=
  List.isPrefixOf_iff_prefix.mpr (List.prefix_append p r)

theorem not_isPrefixOf_cons_of_head_ne {p c : Char} (ps cs : List Char) (h : ¬(p = c)) :
    (p :: ps).isPrefixOf (c :: cs) = false := by
  cases hp : (p :: ps).isPrefixOf (c :: cs) with
  | false => rfl
  | true =>
    exfalso
    obtain ⟨t, ht⟩ := List.isPrefixOf_iff_prefix.mp hp
    exact h (List.cons.injEq .. ▸ ht).1

theorem findSubIdx_self_append (pat r : List Char) : findSubIdx (pat ++ r) pat = some 0 := by
  rw [findSubIdx.eq_def]
  simp [isPrefixOf_refl_append]

theorem findSubIdx_boundary {p : Char} (ps : List Char) :
    ∀ (z : List Char), (∀ c ∈ z, ¬(c = p)) →
      findSubIdx (z ++ (p :: ps)) (p :: ps) = some z.length := by
  intro z
  induction z with
  | nil => intro _; simpa using findSubIdx_self_append (p :: ps) []
  | cons c z ih =>
    intro h
    have hne : ¬(p = c) := fun he => h c (List.mem_cons_self _ _) he.symm
    rw [findSubIdx.eq_def]
    simp only [List.cons_append, not_isPrefixOf_cons_of_head_ne _ _ hne, Bool.false_eq_true,
      if_false]
    rw [ih (fun d hd => h d (List.mem_cons_of_mem _ hd))]
    simp

theorem newline_not_mem_escapeList (s : List Char) : '\n' ∉ escapeList s := by
  induction s with
  | nil => simp [escapeList]
  | cons c s ih =>
    simp only [escapeList, List.mem_append]
    rintro (hc | hc)
    · unfold escapeChar at hc
      split_ifs at hc with h1 h2 h3 h4 h5
      · exact absurd hc (by decide)
      · exact absurd hc (by decide)
      · exact absurd hc (by decide)
      · exact absurd hc (by decide)
      · exact absurd hc (by decide)
      · rw [List.mem_singleton] at hc
        exact h3 hc.symm
    · exact ih hc

theorem newline_not_mem_natToChars (n : Nat) : '\n' ∉ natToChars n := by
  intro h
  have := natToChars_digits n _ h
  exact absurd this (by decide)

/-- The serializer never emits a raw newline: newlines inside strings are
escaped, and no other token contains one (strong induction on the fuel
measure). -/
theorem newline_not_mem_serialize_all :
    ∀ N : Nat,
      (∀ v, jsonFuel v ≤ N → '\n' ∉ serialize v) ∧
      (∀ xs, jsonFuelElems xs ≤ N → '\n' ∉ serializeElems xs ∧ '\n' ∉ serializeRest xs) ∧
      (∀ kvs, jsonFuelPairs kvs ≤ N →
        '\n' ∉ serializePairs kvs ∧ '\n' ∉ serializePairsRest kvs) := by
  intro N
  induction N using Nat.strong_induction_on with
  | _ N ih =>
  refine ⟨?_, ?_, ?_⟩
  · intro v hv
    cases v with
    | null => decide
    | bool b => cases b <;> decide
    | num n =>
      intro h
      by_cases hn : n < 0
      · rw [show serialize (Json.num n) = '-' :: natToChars n.natAbs from
            by simp [serialize, hn]] at h
        rcases List.mem_cons.mp h with h | h
        · exact absurd h (by decide)
        · exact newline_not_mem_natToChars _ h
      · rw [show serialize (Json.num n) = natToChars n.toNat from by simp [serialize, hn]] at h
        exact newline_not_mem_natToChars _ h
    | str s =>
      simp only [serialize]
      intro h
      rcases List.mem_cons.mp h with h | h
      · exact absurd h (by decide)
      · rcases List.mem_append.mp h with h | h
        · exact newline_not_mem_escapeList s h
        · simp at h; exact absurd h (by decide)
    | arr xs =>
      simp only [jsonFuel] at hv
      have h1 := jsonFuelElems_pos xs
      simp only [serialize]
      intro h
      rcases List.mem_cons.mp h with h | h
      · exact absurd h (by decide)
      · exact ((ih (N - 1) (by omega)).2.1 xs (by omega)).1 h
    | obj kvs =>
      simp only [jsonFuel] at hv
      have h1 := jsonFuelPairs_pos kvs
      simp only [serialize]
      intro h
      rcases List.mem_cons.mp h with h | h
      · exact absurd h (by decide)
      · exact ((ih (N - 1) (by omega)).2.2 kvs (by omega)).1 h
  · intro xs hxs
    cases xs with
    | nil => constructor <;> decide
    | cons x xs =>
      simp only [jsonFuelElems] at hxs
      have h1 := jsonFuel_pos x
      have h2 := jsonFuelElems_pos xs
      have hx := (ih (N - 1) (by omega)).1 x (by omega)
      have hr := ((ih (N - 1) (by omega)).2.1 xs (by omega)).2
      constructor
      · intro h
        rw [show serializeElems (x :: xs) = serialize x ++ serializeRest xs from
            by simp [serializeElems]] at h
        rcases List.mem_append.mp h with h | h
        · exact hx h
        · exact hr h
      · intro h
        rw [show serializeRest (x :: xs) = commaChar :: (serialize x ++ serializeRest xs) from
            by simp [serializeRest]] at h
        rcases List.mem_cons.mp h with h | h
        · exact absurd h (by decide)
        · rcases List.mem_append.mp h with h | h
          · exact hx h
          · exact hr h
  · intro kvs hkvs
    cases kvs with
    | nil => constructor <;> decide
    | cons kv kvs =>
      obtain ⟨k, v⟩ := kv
      simp only [jsonFuelPairs] at hkvs
      have h1 := jsonFuel_pos v
      have h2 := jsonFuelPairs_pos kvs
      have hv := (ih (N - 1) (by omega)).1 v (by omega)
      have hr := ((ih (N - 1) (by omega)).2.2 kvs (by omega)).2
      have hbody : ∀ d, d ∈ escapeList k ++ ([quoteChar, colonChar] ++
          (serialize v ++ serializePairsRest kvs)) → d = '\n' → False := by
        intro d hd hdn
        subst hdn
        rcases List.mem_append.mp hd with h | h
        · exact newline_not_mem_escapeList k h
        · rcases List.mem_append.mp h with h | h
          · exact absurd h (by decide)
          · rcases List.mem_append.mp h with h | h
            · exact hv h
            · exact hr h
      constructor
      · intro h
        rw [show serializePairs ((k, v) :: kvs) = quoteChar :: (escapeList k ++
            ([quoteChar, colonChar] ++ (serialize v ++ serializePairsRest kvs))) from
            by simp [serializePairs]] at h
        rcases List.mem_cons.mp h with h | h
        · exact absurd h (by decide)
        · exact hbody _ h rfl
      · intro h
        rw [show serializePairsRest ((k, v) :: kvs) = commaChar :: (quoteChar :: (escapeList k ++
            ([quoteChar, colonChar] ++ (serialize v ++ serializePairsRest kvs)))) from
            by simp [serializePairsRest]] at h
        rcases List.mem_cons.mp h with h | h
        · exact absurd h (by decide)
        · rcases List.mem_cons.mp h with h | h
          · exact absurd h (by decide)
          · exact hbody _ h rfl

theorem newline_not_mem_serialize (v : Json) : '\n' ∉ serialize v :=
  (newline_not_mem_serialize_all (jsonFuel v)).1 v (le_refl _)

theorem searchFence_of_matchAt {m : List Char → Option (List Char)} {cs g : List Char}
    (h : m cs = some g) : searchFence m cs = some g := by
  cases cs with
  | nil => simpa [searchFence] using h
  | cons c rest => simp [searchFence, h]

theorem searchFence_none_of_all (m : List Char → Option (List Char)) :
    ∀ cs : List Char, (∀ t, t <:+ cs → m t = none) → searchFence m cs = none := by
  intro cs
  induction cs with
  | nil =>
    intro h
    simpa [searchFence] using h [] List.suffix_rfl
  | cons c rest ih =>
    intro h
    simp only [searchFence, h (c :: rest) List.suffix_rfl]
    exact ih (fun t ht => h t (ht.trans (List.suffix_cons c rest)))

/-- The backtracking `\s*` + `\n` + lazy-group engine applied to the exact
shape produced by fencing a serialized object: the whitespace run is the
single newline, and the group is the serialized object itself. -/
theorem matchFenceNlAt_obj (pre : List Char) (kvs : List (List Char × Json)) :
    matchFenceNlAt pre (pre ++ ('\n' :: (serialize (Json.obj kvs) ++ newlineFence))) =
      some (serialize (Json.obj kvs)) := by
  have hz : serialize (Json.obj kvs) = leftBraceChar :: serializePairs kvs := by simp [serialize]
  have hnomem : ∀ c ∈ serialize (Json.obj kvs), ¬(c = '\n') := by
    intro c hc he
    exact newline_not_mem_serialize (Json.obj kvs) (he ▸ hc)
  have hfind : findSubIdx (serialize (Json.obj kvs) ++ newlineFence) newlineFence =
      some (serialize (Json.obj kvs)).length := by
    rw [show newlineFence = '\n' :: ticks3 from rfl]
    exact findSubIdx_boundary ticks3 _ hnomem
  have hrun : (('\n' :: (serialize (Json.obj kvs) ++ newlineFence)).takeWhile isPyWs).length
      = 1 := by
    rw [hz, List.cons_append, List.takeWhile_cons, if_pos (by decide : isPyWs '\n' = true),
      List.takeWhile_cons, if_neg (by decide : ¬(isPyWs leftBraceChar = true))]
    rfl
  have hatt1 : fenceNlAttempt ('\n' :: (serialize (Json.obj kvs) ++ newlineFence)) 1 = none := by
    simp [fenceNlAttempt, hz, show ¬(leftBraceChar = '\n') from by decide]
  have hatt0 : fenceNlAttempt ('\n' :: (serialize (Json.obj kvs) ++ newlineFence)) 0 =
      some (serialize (Json.obj kvs)) := by
    unfold fenceNlAttempt
    rw [List.drop_zero]
    simp [hfind, List.take_left]
  have hstrip : matchFenceNlAt pre (pre ++ ('\n' :: (serialize (Json.obj kvs) ++
      newlineFence))) = tryWsNl ('\n' :: (serialize (Json.obj kvs) ++ newlineFence))
      (('\n' :: (serialize (Json.obj kvs) ++ newlineFence)).takeWhile isPyWs).length := by
    unfold matchFenceNlAt
    rw [stripPre_append]
  rw [hstrip, hrun]
  show tryWsNl _ (0 + 1) = _
  rw [tryWsNl, hatt1]
  show tryWsNl _ 0 = _
  rw [tryWsNl, hatt0]

theorem serializePairs_ends (kvs : List (List Char × Json)) :
    (∃ l, serializePairs kvs = l ++ [rightBraceChar]) ∧
    (∃ l, serializePairsRest kvs = l ++ [rightBraceChar]) := by
  induction kvs with
  | nil => exact ⟨⟨[], by simp [serializePairs]⟩, ⟨[], by simp [serializePairsRest]⟩⟩
  | cons kv kvs ih =>
    obtain ⟨k, v⟩ := kv
    obtain ⟨l, hl⟩ := ih.2
    constructor
    · refine ⟨quoteChar :: escapeList k ++ [quoteChar, colonChar] ++ serialize v ++ l, ?_⟩
      simp [serializePairs, hl]
    · refine ⟨commaChar :: quoteChar :: escapeList k ++ [quoteChar, colonChar] ++
        serialize v ++ l, ?_⟩
      simp [serializePairsRest, hl]

theorem pyStrip_eq_self {l : List Char} (h1 : ∃ c cs, l = c :: cs ∧ isPyWs c = false)
    (h2 : ∃ m d, l = m ++ [d] ∧ isPyWs d = false) : pyStrip l = l := by
  obtain ⟨c, cs, hc, hcw⟩ := h1
  obtain ⟨m, d, hm, hdw⟩ := h2
  unfold pyStrip
  rw [hc, List.dropWhile_cons, if_neg (by simp [hcw]), ← hc, hm, List.reverse_append,
    List.reverse_singleton, List.singleton_append, List.dropWhile_cons, if_neg (by simp [hdw])]
  simp

theorem pyStrip_serialize_obj (kvs : List (List Char × Json)) :
    pyStrip (serialize (Json.obj kvs)) = serialize (Json.obj kvs) := by
  obtain ⟨l, hl⟩ := (serializePairs_ends kvs).1
  refine pyStrip_eq_self ⟨leftBraceChar, serializePairs kvs, by simp [serialize], by decide⟩
    ⟨leftBraceChar :: l, rightBraceChar, ?_, by decide⟩
  simp [serialize, hl]

theorem matchFenceNlAt_none_of_strip {pre t : List Char} (h : stripPre pre t = none) :
    matchFenceNlAt pre t = none := by
  unfold matchFenceNlAt
  rw [h]

theorem stripPre_fenceJsonTag_no_tick :
    ∀ (z : List Char), (∀ c ∈ z, ¬(c = backtickChar)) →
      ∀ t, t <:+ (z ++ ('\n' :: ticks3)) → stripPre fenceJsonTag t = none := by
  intro z
  induction z with
  | nil =>
    intro _ t ht
    simp only [List.nil_append] at ht
    rcases List.suffix_cons_iff.mp ht with rfl | ht
    · decide
    · rcases List.suffix_cons_iff.mp ht with rfl | ht
      · decide
      · rcases List.suffix_cons_iff.mp ht with rfl | ht
        · decide
        · rcases List.suffix_cons_iff.mp ht with rfl | ht
          · decide
          · rw [List.suffix_nil.mp ht]
            decide
  | cons c z ih =>
    intro hz t ht
    rw [List.cons_append] at ht
    rcases List.suffix_cons_iff.mp ht with rfl | ht
    · have hne : ¬(backtickChar = c) :=
        fun he => hz c (List.mem_cons_self _ _) he.symm
      rw [show fenceJsonTag = backtickChar :: ([backtickChar, backtickChar] ++
        ['j', 's', 'o', 'n']) from rfl]
      exact stripPre_none_of_head_ne _ hne _
    · exact ih (fun d hd => hz d (List.mem_cons_of_mem _ hd)) t ht

/-- On a plain-fenced serialized object with no backtick inside, the
`​```json`-tagged pattern (strategy 2) finds no match anywhere. -/
theorem searchPat1_plain_fence_none (kvs : List (List Char × Json))
    (hb : backtickChar ∉ serialize (Json.obj kvs)) :
    searchPat1 (ticks3 ++ ('\n' :: (serialize (Json.obj kvs) ++ newlineFence))) = none := by
  apply searchFence_none_of_all
  intro t ht
  apply matchFenceNlAt_none_of_strip
  have hsub : ∀ u, u <:+ (serialize (Json.obj kvs) ++ ('\n' :: ticks3)) →
      stripPre fenceJsonTag u = none :=
    stripPre_fenceJsonTag_no_tick _ (fun c hc he => hb (he ▸ hc))
  rw [show ticks3 ++ ('\n' :: (serialize (Json.obj kvs) ++ newlineFence)) =
      backtickChar :: backtickChar :: backtickChar :: '\n' ::
        (serialize (Json.obj kvs) ++ ('\n' :: ticks3)) from by
    simp [ticks3, newlineFence]] at ht
  rcases List.suffix_cons_iff.mp ht with rfl | ht
  · simp [fenceJsonTag, ticks3, stripPre, show ¬(('j' : Char) = '\n') from by decide]
  · rcases List.suffix_cons_iff.mp ht with rfl | ht
    · simp [fenceJsonTag, ticks3, stripPre, show ¬(backtickChar = '\n') from by decide]
    · rcases List.suffix_cons_iff.mp ht with rfl | ht
      · simp [fenceJsonTag, ticks3, stripPre, show ¬(backtickChar = '\n') from by decide]
      · rcases List.suffix_cons_iff.mp ht with rfl | ht
        · rw [show fenceJsonTag = backtickChar :: ([backtickChar, backtickChar] ++
            ['j', 's', 'o', 'n']) from rfl]
          exact stripPre_none_of_head_ne _ (by decide) _
        · exact hsub t ht

theorem strategyDirect_serialize (v : Json) : strategyDirect (serialize v) = some v :=
  json_loads_serialize v

theorem extract_json_serialize (v : Json) :
    extract_json_from_response (serialize v) = Except.ok v := by
  unfold extract_json_from_response extractAttempts
  rw [strategyDirect_serialize v]
  rfl

theorem extract_json_fenced_json_helper (kvs : List (List Char × Json)) :
    extract_json_from_response
        (fenceJsonTag ++ ('\n' :: (serialize (Json.obj kvs) ++ newlineFence))) =
      Except.ok (Json.obj kvs) := by
  have hhead : fenceJsonTag ++ ('\n' :: (serialize (Json.obj kvs) ++ newlineFence)) =
      backtickChar :: (backtickChar :: backtickChar :: 'j' :: 's' :: 'o' :: 'n' :: '\n' ::
        (serialize (Json.obj kvs) ++ newlineFence)) := by
    simp [fenceJsonTag, ticks3]
  have h1 : strategyDirect
      (fenceJsonTag ++ ('\n' :: (serialize (Json.obj kvs) ++ newlineFence))) = none := by
    unfold strategyDirect
    rw [hhead]
    exact json_loads_backtick_head _
  have h2 : strategyFence searchPat1
      (fenceJsonTag ++ ('\n' :: (serialize (Json.obj kvs) ++ newlineFence))) =
      some (Json.obj kvs) := by
    unfold strategyFence searchPat1
    rw [searchFence_of_matchAt (matchFenceNlAt_obj fenceJsonTag kvs)]
    simp [pyStrip_serialize_obj, json_loads_serialize]
  unfold extract_json_from_response extractAttempts
  rw [h1, h2]
  rfl

theorem extract_json_plain_fenced_helper (kvs : List (List Char × Json))
    (hb : backtickChar ∉ serialize (Json.obj kvs)) :
    extract_json_from_response
        (ticks3 ++ ('\n' :: (serialize (Json.obj kvs) ++ newlineFence))) =
      Except.ok (Json.obj kvs) := by
  have hhead : ticks3 ++ ('\n' :: (serialize (Json.obj kvs) ++ newlineFence)) =
      backtickChar :: (backtickChar :: backtickChar :: '\n' ::
        (serialize (Json.obj kvs) ++ newlineFence)) := by
    simp [ticks3]
  have h1 : strategyDirect
      (ticks3 ++ ('\n' :: (serialize (Json.obj kvs) ++ newlineFence))) = none := by
    unfold strategyDirect
    rw [hhead]
    exact json_loads_backtick_head _
  have hp1 : strategyFence searchPat1
      (ticks3 ++ ('\n' :: (serialize (Json.obj kvs) ++ newlineFence))) = none := by
    unfold strategyFence
    rw [searchPat1_plain_fence_none kvs hb]
  have h2 : strategyFence searchPat2
      (ticks3 ++ ('\n' :: (serialize (Json.obj kvs) ++ newlineFence))) =
      some (Json.obj kvs) := by
    unfold strategyFence searchPat2
    rw [searchFence_of_matchAt (matchFenceNlAt_obj ticks3 kvs)]
    simp [pyStrip_serialize_obj, json_loads_serialize]
  unfold extract_json_from_response extractAttempts
  rw [h1, hp1, h2]
  rfl

theorem extract_json_error_iff (cs : List Char) :
    extract_json_from_response cs = Except.error (malformedMsg cs) ↔
      (strategyDirect cs = none ∧ strategyFence searchPat1 cs = none ∧
        strategyFence searchPat2 cs = none ∧ strategyFence searchPat3 cs = none ∧
        strategyFence searchPat4 cs = none ∧ strategySplit cs = none) := by
  unfold extract_json_from_response extractAttempts
  cases h0 : strategyDirect cs with
  | some v => simp [Option.orElse, h0]
  | none =>
  cases h1 : strategyFence searchPat1 cs with
  | some v => simp [Option.orElse, h0, h1]
  | none =>
  cases h2 : strategyFence searchPat2 cs with
  | some v => simp [Option.orElse, h0, h1, h2]
  | none =>
  cases h3 : strategyFence searchPat3 cs with
  | some v => simp [Option.orElse, h0, h1, h2, h3]
  | none =>
  cases h4 : strategyFence searchPat4 cs with
  | some v => simp [Option.orElse, h0, h1, h2, h3, h4]
  | none =>
  cases h5 : strategySplit cs with
  | some v => simp [Option.orElse, h0, h1, h2, h3, h4, h5]
  | none => simp [Option.orElse, h0, h1, h2, h3, h4, h5]

/-- C5: `extract_json_from_response` succeeds on a bare JSON object, on a
JSON object in a ```json fenced block, and on a JSON object in a plain
``` fenced block (for the plain fence the serialized object must not
itself contain a backtick, which would alter the fence structure); it
returns the malformed-response error exactly when all extraction
strategies — direct parse, the four fenced-block patterns, the split
fallback — fail, that error is the only error it ever returns, and its
message carries a preview of the input truncated to at most 200
characters. -/
theorem extract_json_strategy_spec :
    (∀ kvs : List (List Char × Json),
      extract_json_from_response (serialize (Json.obj kvs)) = Except.ok (Json.obj kvs)) ∧
    (∀ kvs : List (List Char × Json),
      extract_json_from_response
          (fenceJsonTag ++ ('\n' :: (serialize (Json.obj kvs) ++ newlineFence))) =
        Except.ok (Json.obj kvs)) ∧
    (∀ kvs : List (List Char × Json), backtickChar ∉ serialize (Json.obj kvs) →
      extract_json_from_response
          (ticks3 ++ ('\n' :: (serialize (Json.obj kvs) ++ newlineFence))) =
        Except.ok (Json.obj kvs)) ∧
    (∀ cs : List Char,
      (extract_json_from_response cs = Except.error (malformedMsg cs) ↔
        (strategyDirect cs = none ∧ strategyFence searchPat1 cs = none ∧
          strategyFence searchPat2 cs = none ∧ strategyFence searchPat3 cs = none ∧
          strategyFence searchPat4 cs = none ∧ strategySplit cs = none)) ∧
      (∀ e, extract_json_from_response cs = Except.error e → e = malformedMsg cs)) ∧
    (∀ cs : List Char,
      malformedMsg cs =
        "Failed to extract JSON from response. Content preview: ".data ++ cs.take 200 ++
          "...".data ∧
      (cs.take 200).length ≤ 200 ∧ cs.take 200 <+: cs) := by
  refine ⟨fun kvs => extract_json_serialize (Json.obj kvs), extract_json_fenced_json_helper,
    extract_json_plain_fenced_helper, fun cs => ⟨extract_json_error_iff cs, ?_⟩,
    fun cs => ⟨rfl, ?_, List.take_prefix _ _⟩⟩
  · intro e h
    unfold extract_json_from_response at h
    cases hA : extractAttempts cs with
    | some v => rw [hA] at h; simp at h
    | none =>
      rw [hA] at h
      simp only [Except.error.injEq] at h
      exact h.symm
  · simp only [List.length_take]
    exact Nat.min_le_left _ _

/-- C5 witness: both fenced forms of the concrete object `{"a": 1}` are
extracted successfully. -/
theorem extract_json_strategy_spec_witness :
    extract_json_from_response
        (ticks3 ++ ('\n' :: (serialize (Json.obj [(['a'], Json.num 1)]) ++ newlineFence))) =
      Except.ok (Json.obj [(['a'], Json.num 1)]) ∧
    extract_json_from_response
        (fenceJsonTag ++ ('\n' :: (serialize (Json.obj [(['a'], Json.num 1)]) ++
          newlineFence))) =
      Except.ok (Json.obj [(['a'], Json.num 1)]) :=
  ⟨extract_json_strategy_spec.2.2.1 [(['a'], Json.num 1)] (by decide),
    extract_json_strategy_spec.2.1 [(['a'], Json.num 1)]⟩

/-- C6: `extract_json_from_response` is idempotent on already-valid JSON
text: when extraction succeeds with value `v`, re-extracting from the JSON
serialization of `v` gives the same result. -/
theorem extract_json_idempotent (cs : List Char) (v : Json)
    (h : extract_json_from_response cs = Except.ok v) :
    extract_json_from_response (serialize v) = extract_json_from_response cs := by
  rw [h]
  exact extract_json_serialize v

/-- C6 witness: idempotence at the concrete input `{ "a" : 1 }`. -/
theorem extract_json_idempotent_witness :
    extract_json_from_response (serialize (Json.obj [(['a'], Json.num 1)])) =
      extract_json_from_response "\x7b \"a\" : 1 \x7d".data :=
  extract_json_idempotent _ (Json.obj [(['a'], Json.num 1)]) (by rfl)

/-! ### Message adaptation lemmas (C7) -/

theorem prependToFirstUser_spec (instr : String) :
    ∀ ms : List Message,
      prependToFirstUser instr ms =
        match ms.dropWhile (fun m => !(m.role == "user")) with
        | u :: post =>
            some (ms.takeWhile (fun m => !(m.role == "user")) ++
              ({ role := "user", content := "Instructions:\n" ++ instr ++ "\n\n" ++ u.content }
                :: post))
        | [] => none := by
  intro ms
  induction ms with
  | nil => rfl
  | cons m ms ih =>
    cases hu : (m.role == "user") with
    | true =>
      have hrole : m.role = "user" := eq_of_beq hu
      simp only [prependToFirstUser, hu, if_true, List.dropWhile_cons, List.takeWhile_cons,
        Bool.not_true, Bool.false_eq_true, if_false, List.nil_append]
      rw [hrole]
    | false =>
      simp only [prependToFirstUser, hu, Bool.false_eq_true, if_false, List.dropWhile_cons,
        List.takeWhile_cons, Bool.not_false, if_true, ih]
      cases hd : ms.dropWhile (fun m => !(m.role == "user")) with
      | nil => rfl
      | cons u post => rfl

theorem transform_eq_adaptMessagesSpec (ms : List Message) :
    transform_messages_for_gemma ms = adaptMessagesSpec ms := by
  have hmapEmpty :
      ((ms.filter (fun m => m.role == "system")).map Message.content).isEmpty =
        (ms.filter (fun m => m.role == "system")).isEmpty := by
    cases ms.filter (fun m => m.role == "system") <;> rfl
  simp only [transform_messages_for_gemma, adaptMessagesSpec, hmapEmpty]
  by_cases hEmpty : (ms.filter (fun m => m.role == "system")).isEmpty = true
  · rw [if_pos hEmpty, if_pos hEmpty]
  · rw [if_neg hEmpty, if_neg hEmpty,
      prependToFirstUser_spec (String.intercalate "\n"
        ((ms.filter (fun m => m.role == "system")).map Message.content))
        (ms.filter (fun m => !(m.role == "system")))]
    cases hd : (ms.filter (fun m => !(m.role == "system"))).dropWhile
        (fun m => !(m.role == "user")) with
    | nil => rfl
    | cons u post =>
      simp [String.append_assoc]

theorem no_system_in_transform (ms : List Message) :
    ∀ m ∈ transform_messages_for_gemma ms, ¬(m.role = "system") := by
  rw [transform_eq_adaptMessagesSpec]
  unfold adaptMessagesSpec
  intro m hm
  by_cases hEmpty : (ms.filter (fun m => m.role == "system")).isEmpty = true
  · rw [if_pos hEmpty] at hm
    have := (List.mem_filter.mp hm).2
    simp only [Bool.not_eq_true'] at this
    exact fun he => by simp [he] at this
  · rw [if_neg hEmpty] at hm
    cases hd : (ms.filter (fun m => !(m.role == "system"))).dropWhile
        (fun m => !(m.role == "user")) with
    | nil =>
      rw [hd] at hm
      rcases List.mem_cons.mp hm with rfl | hm
      · simp
      · have := (List.mem_filter.mp hm).2
        simp only [Bool.not_eq_true'] at this
        exact fun he => by simp [he] at this
    | cons u post =>
      rw [hd] at hm
      rcases List.mem_append.mp hm with hm | hm
      · have hsub : m ∈ ms.filter (fun m => !(m.role == "system")) :=
          (List.takeWhile_sublist _).subset hm
        have := (List.mem_filter.mp hsub).2
        simp only [Bool.not_eq_true'] at this
        exact fun he => by simp [he] at this
      · rcases List.mem_cons.mp hm with rfl | hm
        · simp
        · have hsub : m ∈ ms.filter (fun m => !(m.role == "system")) :=
            (List.dropWhile_sublist _).subset (hd ▸ List.mem_cons_of_mem u hm)
          have := (List.mem_filter.mp hsub).2
          simp only [Bool.not_eq_true'] at this
          exact fun he => by simp [he] at this

/-- C7: for every restricted-role (Gemma-family, non-Flash) model, message
adaptation concatenates all system messages in original order and prepends
them, under the literal "Instructions:" header, to the first user message's
content (synthesizing a leading user message if none exists), leaving no
system-role message in the output — stated as equality with
`adaptMessagesSpec`, the function written from the spec's words — and in
particular `[{system, "A"}, {user, "B"}]` becomes the single user message
`"Instructions:\nA\n\nB"`. -/
theorem adapt_messages_restricted_role :
    (∀ (model : String) (ms : List Message), is_gemma_model model = true →
      adapt_messages model ms = adaptMessagesSpec ms ∧
      ∀ m ∈ adapt_messages model ms, ¬(m.role = "system")) ∧
    transform_messages_for_gemma [⟨"system", "A"⟩, ⟨"user", "B"⟩] =
      [⟨"user", "Instructions:\nA\n\nB"⟩] := by
  constructor
  · intro model ms hg
    have hadapt : adapt_messages model ms = transform_messages_for_gemma ms := by
      unfold adapt_messages
      rw [if_pos hg]
    rw [hadapt]
    exact ⟨transform_eq_adaptMessagesSpec ms, no_system_in_transform ms⟩
  · rfl

/-- C7 witness: the adaptation applied for the concrete restricted-role
model name `gemma-3-27b-it` and the two-message list. -/
theorem adapt_messages_restricted_role_witness :
    adapt_messages "gemma-3-27b-it" [⟨"system", "A"⟩, ⟨"user", "B"⟩] =
      adaptMessagesSpec [⟨"system", "A"⟩, ⟨"user", "B"⟩] ∧
    ∀ m ∈ adapt_messages "gemma-3-27b-it" [⟨"system", "A"⟩, ⟨"user", "B"⟩],
      ¬(m.role = "system") :=
  adapt_messages_restricted_role.1 "gemma-3-27b-it" [⟨"system", "A"⟩, ⟨"user", "B"⟩]
    (by decide)

/-! ### Classification stage lemmas (C1, C4) -/

theorem convertItems_length (config : MetadataConfig) :
    ∀ (resp : List RawClassificationItem) (rs : List NoteClassification),
      convertItems config resp = some rs → rs.length = resp.length := by
  intro resp
  induction resp with
  | nil =>
    intro rs h
    simp only [convertItems, Option.some.injEq] at h
    rw [← h]
    rfl
  | cons i is ih =>
    intro rs h
    simp only [convertItems] at h
    cases hc : convertItem config i with
    | none => rw [hc] at h; cases h
    | some c =>
      rw [hc] at h
      cases hcs : convertItems config is with
      | none => rw [hcs] at h; cases h
      | some cs =>
        rw [hcs] at h
        simp only [Option.some.injEq] at h
        rw [← h]
        simp [ih cs hcs]

theorem convertItems_get (config : MetadataConfig) :
    ∀ (resp : List RawClassificationItem) (rs : List NoteClassification),
      convertItems config resp = some rs →
      ∀ (i : Nat) (hi : i < rs.length) (hr : i < resp.length),
        convertItem config (resp.get ⟨i, hr⟩) = some (rs.get ⟨i, hi⟩) := by
  intro resp
  induction resp with
  | nil => intro rs h i hi hr; exact absurd hr (by simp)
  | cons x xs ih =>
    intro rs h i hi hr
    simp only [convertItems] at h
    cases hc : convertItem config x with
    | none => rw [hc] at h; cases h
    | some c =>
      rw [hc] at h
      cases hcs : convertItems config xs with
      | none => rw [hcs] at h; cases h
      | some cs =>
        rw [hcs] at h
        simp only [Option.some.injEq] at h
        subst h
        cases i with
        | zero => simpa using hc
        | succ i => exact ih cs hcs i (by simpa using hi) (by simpa using hr)

theorem convertItem_note_id (config : MetadataConfig) (item : RawClassificationItem)
    (c : NoteClassification) (h : convertItem config item = some c) :
    c.note_id = item.note_id.getD 0 := by
  unfold convertItem at h
  cases ha : ActionType.ofString item.action with
  | none => rw [ha] at h; cases h
  | some a =>
    rw [ha] at h
    simp only [Option.some.injEq] at h
    rw [← h]

/-- C1 (amended): for every batch, `_classify_batch` either returns exactly
one classification per input note — each built from the model's entry, with
`note_id` taken verbatim from the model (default 0), not validated against
the note's input position — or fails, with the count-mismatch error when
the number of entries differs from the batch size and with an
action-conversion error when an entry's action string is invalid; there is
no silent padding (every returned entry comes from the response). -/
theorem classify_batch_behavior :
    ∀ (config : MetadataConfig) (batch : List String) (indices : List Int)
      (response : List RawClassificationItem),
      (∀ rs, classify_batch config batch indices response = Except.ok rs →
        rs.length = batch.length ∧ convertItems config response = some rs ∧
        ∀ (i : Nat) (hi : i < rs.length) (hr : i < response.length),
          (rs.get ⟨i, hi⟩).note_id = (response.get ⟨i, hr⟩).note_id.getD 0) ∧
      (∀ e, classify_batch config batch indices response = Except.error e →
        (e = PyError.countMismatch ∧ ∃ rs, convertItems config response = some rs ∧
          rs.length ≠ batch.length) ∨
        (e = PyError.invalidAction ∧ convertItems config response = none)) := by
  intro config batch indices response
  constructor
  · intro rs h
    unfold classify_batch at h
    cases hC : convertItems config response with
    | none => rw [hC] at h; cases h
    | some results =>
      rw [hC] at h
      replace h : (if results.length ≠ batch.length then Except.error PyError.countMismatch
          else Except.ok results) = Except.ok rs := h
      by_cases hlen : results.length ≠ batch.length
      · rw [if_pos hlen] at h; cases h
      · rw [if_neg hlen] at h
        simp only [Except.ok.injEq] at h
        subst h
        refine ⟨by omega, rfl, ?_⟩
        intro i hi hr
        exact convertItem_note_id config _ _
          (convertItems_get config response results hC i hi hr)
  · intro e h
    unfold classify_batch at h
    cases hC : convertItems config response with
    | none =>
      rw [hC] at h
      replace h : Except.error (α := List NoteClassification) PyError.invalidAction =
          Except.error e := h
      simp only [Except.error.injEq] at h
      exact Or.inr ⟨h.symm, rfl⟩
    | some results =>
      rw [hC] at h
      replace h : (if results.length ≠ batch.length then Except.error PyError.countMismatch
          else Except.ok results) = Except.error e := h
      by_cases hlen : results.length ≠ batch.length
      · rw [if_pos hlen] at h
        simp only [Except.error.injEq] at h
        exact Or.inl ⟨h.symm, results, rfl, hlen⟩
      · rw [if_neg hlen] at h; cases h

/-- C1 counterexample: the model reports `note_id = 7` for the note at
global input position 0; `_classify_batch` returns it unchanged, so a
successful call whose `note_id` differs from the input position exists —
refuting the claim that every success has `note_id` equal to the input
position. -/
theorem classify_batch_note_id_counterexample :
    classify_batch defaultMetadataConfig ["note"] [0]
        [⟨some 7, ["P"], "REFINE", "r", [1/2]⟩] =
      Except.ok [⟨7, ["P"], ActionType.REFINE, "r", [1/2]⟩] ∧
    (7 : Int) ≠ 0 :=
  ⟨rfl, by decide⟩

/-- C1 witness: the amended theorem applied to the concrete batch above. -/
theorem classify_batch_behavior_witness :
    ([⟨7, ["P"], ActionType.REFINE, "r", [1/2]⟩] : List NoteClassification).length =
      (["note"] : List String).length :=
  ((classify_batch_behavior defaultMetadataConfig ["note"] [0]
    [⟨some 7, ["P"], "REFINE", "r", [1/2]⟩]).1 _ rfl).1

/-- C4 (amended): every classification built by `_classify_batch` has
`projects` and `confidence_scores` separately truncated to
`top_n_projects`; the invariant `len(projects) == len(confidence_scores)`
therefore holds whenever the model's raw lists have equal length, but it is
not enforced when the raw lists' lengths differ below the cutoff. -/
theorem convertItem_truncation :
    ∀ (config : MetadataConfig) (item : RawClassificationItem) (c : NoteClassification),
      convertItem config item = some c →
      c.projects.length = min config.top_n_projects item.projects.length ∧
      c.confidence_scores.length = min config.top_n_projects item.confidence_scores.length ∧
      (item.projects.length = item.confidence_scores.length →
        c.projects.length = c.confidence_scores.length) := by
  intro config item c h
  unfold convertItem at h
  cases ha : ActionType.ofString item.action with
  | none => rw [ha] at h; cases h
  | some a =>
    rw [ha] at h
    simp only [Option.some.injEq] at h
    subst h
    refine ⟨by simp [List.length_take], by simp [List.length_take], ?_⟩
    intro he
    simp [List.length_take, he]

/-- C4 counterexample: a model entry with one project but two confidence
scores passes through `_classify_batch` unrepaired, producing a
`NoteClassification` with `len(projects) ≠ len(confidence_scores)`. -/
theorem convertItem_truncation_counterexample :
    classify_batch defaultMetadataConfig ["note"] [0]
        [⟨some 0, ["A"], "REFINE", "r", [9/10, 8/10]⟩] =
      Except.ok [⟨0, ["A"], ActionType.REFINE, "r", [9/10, 8/10]⟩] ∧
    (⟨0, ["A"], ActionType.REFINE, "r", [9/10, 8/10]⟩ :
      NoteClassification).projects.length ≠
      (⟨0, ["A"], ActionType.REFINE, "r", [9/10, 8/10]⟩ :
        NoteClassification).confidence_scores.length :=
  ⟨rfl, by decide⟩

/-- C4 witness: the amended theorem applied to a concrete entry with
equal-length raw lists. -/
theorem convertItem_truncation_witness :
    (⟨0, ["A", "B"], ActionType.REFINE, "r", [9/10, 8/10]⟩ :
        NoteClassification).projects.length =
      (⟨0, ["A", "B"], ActionType.REFINE, "r", [9/10, 8/10]⟩ :
        NoteClassification).confidence_scores.length :=
  (convertItem_truncation defaultMetadataConfig ⟨some 0, ["A", "B"], "REFINE", "r",
    [9/10, 8/10]⟩ _ rfl).2.2 rfl

/-- C2 (code bug): the DO_NOW branch of `process_note` (run.py 44, 47)
reads `metadata_result.classification.do_now`, but `NoteClassification`
declares no `do_now` field (the derived flag is
`MetadataResult.is_do_now`), so the attribute access raises
`AttributeError` before any branching: every call to `process_note` fails,
for every input, and the claimed DO_NOW short-circuit (importance=4,
urgency=4, impact=100, top confidence, no enrichment) is unreachable. -/
theorem process_note_attribute_error :
    ∀ (note : String) (metadata_result : MetadataResult) (task_config : TaskConfig)
      (enrichment_config : EnrichmentConfig) (ranking_result : RankingResult)
      (enrichmentLlm : Option (List String × String)),
      process_note note metadata_result task_config enrichment_config ranking_result
          enrichmentLlm =
        Except.error PyError.attributeError := by
  intro note mr tc ec rr llm
  rfl

/-- C3 (code bug): when the ranking judge step fails, the except branch of
`_judge_rank` (ranking.py 166-175) builds `RankingResult` without the
required `title` field, so pydantic validation fails and a
`ValidationError` propagates out of the stage — the conservative default
(importance=2, urgency=1, impact=20, confidence=0.5, default title) is
never returned. -/
theorem judge_rank_failure_raises :
    ∀ (note : String), judge_rank note none = Except.error PyError.validationError := by
  intro note
  rfl

/-- C8: `determine_ai_use_status` returns `AMBIGUOUS` exactly when the
confidence is strictly below the configured threshold and `PROCESSED`
exactly when the confidence equals or exceeds it (the boundary is
inclusive on the `PROCESSED` side); the default threshold is 0.9. -/
theorem determine_ai_use_status_boundary :
    (∀ (config : TaskConfig) (confidence : ℚ),
      (determine_ai_use_status config confidence = AIUseStatus.AMBIGUOUS ↔
        confidence < config.confidence_threshold) ∧
      (determine_ai_use_status config confidence = AIUseStatus.PROCESSED ↔
        config.confidence_threshold ≤ confidence)) ∧
    defaultTaskConfig.confidence_threshold = 9/10 := by
  refine ⟨fun config confidence => ?_, rfl⟩
  unfold determine_ai_use_status
  by_cases h : confidence < config.confidence_threshold
  · rw [if_pos h]
    exact ⟨iff_of_true rfl h, iff_of_false (by decide) (not_le.mpr h)⟩
  · rw [if_neg h]
    exact ⟨iff_of_false (by decide) h, iff_of_true rfl (not_lt.mp h)⟩

/-- C9: `EnrichmentProcessor.process` returns the skip sentinel `None`
exactly when the impact score is strictly below the configured threshold
(default 15); at or above the threshold it attempts generation, and a
failed generation yields an `EnrichmentResult` with empty text and an
empty lens list — a `some` value, distinct from the skip sentinel. -/
theorem enrichment_process_gate :
    (∀ (config : EnrichmentConfig) (note : String) (impact_score : Int)
        (llmOutcome : Option (List String × String)),
      (enrichment_process config note impact_score llmOutcome = none ↔
        impact_score < config.impact_threshold) ∧
      (config.impact_threshold ≤ impact_score →
        enrichment_process config note impact_score llmOutcome =
          some (enrich_note note llmOutcome))) ∧
    (∀ (config : EnrichmentConfig) (note : String) (impact_score : Int),
      config.impact_threshold ≤ impact_score →
        enrichment_process config note impact_score none =
          some { enriched_text := "", lenses_used := [] } ∧
        enrichment_process config note impact_score none ≠ none) ∧
    defaultEnrichmentConfig.impact_threshold = 15 := by
  refine ⟨fun config note impact llmOutcome => ⟨?_, ?_⟩, fun config note impact h => ⟨?_, ?_⟩, rfl⟩
  · unfold enrichment_process
    by_cases h : impact < config.impact_threshold
    · rw [if_pos h]
      exact iff_of_true rfl h
    · rw [if_neg h]
      exact iff_of_false (by simp) h
  · intro h
    unfold enrichment_process
    rw [if_neg (not_lt.mpr h)]
  · unfold enrichment_process enrich_note
    rw [if_neg (not_lt.mpr h)]
  · unfold enrichment_process
    rw [if_neg (not_lt.mpr h)]
    simp

/-- C9 witness: at the default threshold, impact 15 with a failed
generation yields the empty enrichment result, and impact 14 is skipped. -/
theorem enrichment_process_gate_witness :
    enrichment_process defaultEnrichmentConfig "x" 15 none =
        some { enriched_text := "", lenses_used := [] } ∧
      enrichment_process defaultEnrichmentConfig "x" 14 none = none :=
  ⟨(enrichment_process_gate.2.1 defaultEnrichmentConfig "x" 15 (by decide)).1,
   (enrichment_process_gate.1 defaultEnrichmentConfig "x" 14 none).1.mpr (by decide)⟩

/-- C10: `_create_do_now_task` reads `confidence_scores[0]` by direct
indexing, so for a DO_NOW classification it produces a task exactly when
`confidence_scores` is non-empty; on the empty list — a shape the data
model permits — the indexing raises `IndexError` and no task is built,
while on a non-empty list the task carries the first score as its
confidence. -/
theorem create_do_now_task_requires_confidence :
    ∀ (note : String) (mr : MetadataResult),
      mr.classification.action = ActionType.DO_NOW →
      ((∃ t, create_do_now_task note mr = Except.ok t) ↔
        mr.classification.confidence_scores ≠ []) ∧
      (mr.classification.confidence_scores = [] →
        create_do_now_task note mr = Except.error PyError.indexError) ∧
      (∀ (c : ℚ) (rest : List ℚ), mr.classification.confidence_scores = c :: rest →
        create_do_now_task note mr =
          Except.ok
            { title := generate_default_title note,
              projects := mr.classification.projects,
              ai_use_status := AIUseStatus.PROCESSED,
              importance := 4,
              urgency := 4,
              impact := 100,
              confidence := some c,
              original_note := note,
              enrichment := none }) := by
  intro note mr _
  unfold create_do_now_task
  cases hcs : mr.classification.confidence_scores with
  | nil =>
    refine ⟨?_, fun _ => rfl, ?_⟩
    · constructor
      · rintro ⟨t, ht⟩
        exact Except.noConfusion
          (show Except.error (α := NotionTask) PyError.indexError = Except.ok t from ht)
      · intro hne
        exact absurd rfl hne
    · intro c rest hcr
      cases hcr
  | cons c0 rest0 =>
    refine ⟨?_, ?_, ?_⟩
    · constructor
      · intro _
        simp
      · intro _
        exact ⟨_, rfl⟩
    · intro hc
      cases hc
    · intro c rest hcr
      injection hcr with h1 h2
      subst h1
      rfl

/-- C10 witness: a DO_NOW classification with an empty score list makes
the fast path raise `IndexError`. -/
theorem create_do_now_task_requires_confidence_witness :
    create_do_now_task "note" ⟨⟨0, [], ActionType.DO_NOW, "r", []⟩, [], true⟩ =
      Except.error PyError.indexError :=
  (create_do_now_task_requires_confidence "note"
    ⟨⟨0, [], ActionType.DO_NOW, "r", []⟩, [], true⟩ rfl).2.1 rfl
